import Mathlib

/-!
# Verification of the itinerary plan-streaming and reconciliation engine

A shallow embedding, over `List Char` buffers and pure Lean functions, of the
core client/server code of the itinerary planner:

* `src/frontend/src/components/Chat.tsx` — the SSE frame parser
  (`parseSSEStream`), the partial-JSON activity extractor
  (`extractCompletedActivities`), the title canonicalizer
  (`normalizeTitleKey`), the within-day dedup/cap (`dedupeWithinDay`,
  `sanitizePlanDays`), the progressive merge (`mergePlanProgress`) and the
  stream event dispatch with its finalize latch.
* `src/frontend/src/components/Content.tsx` — the drag-and-drop mutators
  (`performReorder`, `performCrossDayMove`, `computeFinalTarget`).
* `src/server/dist/routers/chat.js` — the cost normalizer (`coerceCost`),
  the suggestion-derived fallback pool (`suggestionsToStrictDays`) and the
  finalize day-count clamp (`enforceDayCount3to5`).

JavaScript strings are modelled as `List Char`; JS `Set`s of strings as
`List String` with membership; JS array mutation as functional update.
Host-language built-ins that are not part of the repository (`JSON.parse`)
are abstracted as function parameters, so theorems hold for every possible
behaviour of the built-in.
-/

/-- A strict plan item (`StrictPlanItem` on the client, the strict item shape
on the server): `{ title, short_description, estimated_cost?, image_url? }`.
The embedding carries structurally valid items only; the JS `isStrictItem`
runtime check is therefore true by typing. -/
structure PlanItem where
  title : String
  short_description : String
  estimated_cost : Option String := none
  image_url : Option String := none
deriving DecidableEq

instance : Inhabited PlanItem := ⟨⟨"", "", none, none⟩⟩

/-- JS `\s` (and `String.prototype.trim`'s) whitespace class:
space, tab, LF, VT, FF, CR, NBSP, Ogham space, the U+2000–U+200A spaces,
line/paragraph separators, narrow NBSP, math space, ideographic space, BOM. -/
def jsWs (c : Char) : Bool :=
  decide (c = ' ' ∨ c = '\t' ∨ c = '\n' ∨ c = '\r' ∨ c = '\x0b' ∨ c = '\x0c' ∨
    c = ' ' ∨ c = ' ' ∨ (' ' ≤ c ∧ c ≤ ' ') ∨
    c = ' ' ∨ c = ' ' ∨ c = ' ' ∨ c = ' ' ∨
    c = '　' ∨ c = '﻿')

/-- JS `\w` word-character class `[A-Za-z0-9_]`. -/
def jsWordChar (c : Char) : Bool :=
  decide (('a' ≤ c ∧ c ≤ 'z') ∨ ('A' ≤ c ∧ c ≤ 'Z') ∨ c.isDigit = true ∨ c = '_')

/-- Both ends trimmed of JS whitespace (`String.prototype.trim`). -/
def trimWs (l : List Char) : List Char :=
  ((l.dropWhile jsWs).reverse.dropWhile jsWs).reverse

/-! ## `normalizeTitleKey` (Chat.tsx and chat.js, identical bodies)

    t.toLowerCase()
     .replace(/^[\s]*(visit|explore|walk|tour|see|go to|discover)\s+/g, '')
     .replace(/&/g, 'and')
     .replace(/[^a-z0-9\s]/g, '')
     .replace(/\s+/g, ' ')
     .trim()
-/

/-- The ordered alternation `(visit|explore|walk|tour|see|go to|discover)`. -/
def genericVerbs : List (List Char) :=
  ["visit".data, "explore".data, "walk".data, "tour".data, "see".data,
   "go to".data, "discover".data]

/-- One alternative of the anchored prefix regex: the verb must be followed by
at least one whitespace (`\s+`, greedy), which is consumed as well. -/
def stripVerb (v core : List Char) : Option (List Char) :=
  if v.isPrefixOf core then
    let after := core.drop v.length
    match after.head? with
    | some c => if jsWs c then some (after.dropWhile jsWs) else none
    | none => none
  else none

/-- `^[\s]*(verb)\s+` → removed; the `g` flag is inert because of the `^`
anchor, so at most one strip happens.  If no alternative matches, the string
is unchanged (including its leading whitespace). -/
def stripLeadingVerb (l : List Char) : List Char :=
  match genericVerbs.findSome? (fun v => stripVerb v (l.dropWhile jsWs)) with
  | some rest => rest
  | none => l

/-- `.replace(/&/g, 'and')`. -/
def ampToAnd (l : List Char) : List Char :=
  l.flatMap (fun c => if c = '&' then "and".data else [c])

/-- `.replace(/[^a-z0-9\s]/g, '')`. -/
def keepLowerDigitWs (l : List Char) : List Char :=
  l.filter (fun c => decide (('a' ≤ c ∧ c ≤ 'z') ∨ c.isDigit = true ∨ jsWs c = true))

/-- `.replace(/\s+/g, ' ')`: every maximal whitespace run becomes one space.
The flag records whether the previous character was inside a run. -/
def collapseWsAux : Bool → List Char → List Char
  | _, [] => []
  | inRun, c :: rest =>
    if jsWs c then
      if inRun then collapseWsAux true rest else ' ' :: collapseWsAux true rest
    else c :: collapseWsAux false rest

def collapseWs (l : List Char) : List Char := collapseWsAux false l

/-- `normalizeTitleKey` — the DedupKey of an activity title. -/
def normalizeTitleKey (t : String) : String :=
  ⟨trimWs (collapseWs (keepLowerDigitWs (ampToAnd
      (stripLeadingVerb (t.data.map Char.toLower)))))⟩

/-- The DedupKey of an item. -/
def itemKey (it : PlanItem) : String := normalizeTitleKey it.title

/-! ## Client-side dedup / cap / merge (Chat.tsx) -/

/-- Worker of `dedupeWithinDay`: push an item whose key is unseen, break as
soon as the output reaches 5 (`if (out.length >= 5) break`). -/
def dedupeGo (seen : List String) (out : List PlanItem) :
    List PlanItem → List PlanItem
  | [] => out
  | it :: rest =>
    let key := itemKey it
    if key ∈ seen then dedupeGo seen out rest
    else
      let out' := out ++ [it]
      if 5 ≤ out'.length then out' else dedupeGo (key :: seen) out' rest

/-- `dedupeWithinDay` (Chat.tsx): dedupe a single day by normalized title and
cap to 5 items.  (The `isStrictItem` guard always holds for typed items.) -/
def dedupeWithinDay (day : List PlanItem) : List PlanItem :=
  dedupeGo [] [] day

/-- `sanitizePlanDays` (Chat.tsx): dedupe each day and cap to 5. -/
def sanitizePlanDays (days : List (List PlanItem)) : List (List PlanItem) :=
  days.map dedupeWithinDay

/-- The inner loop of `mergePlanProgress`: walk the incoming day, skipping
items whose key is in `seen`, appending fresh ones, and `break`ing the whole
loop once the existing day holds 5 items. -/
def mergeAddLoop (existing : List PlanItem) (seen : List String) :
    List PlanItem → List PlanItem
  | [] => existing
  | it :: rest =>
    if 5 ≤ existing.length then existing
    else
      let key := itemKey it
      if key ∈ seen then mergeAddLoop existing seen rest
      else mergeAddLoop (existing ++ [it]) (key :: seen) rest

/-- One day of `mergePlanProgress`: add unseen incoming items (capped), then
re-run the within-day dedup+cap safety pass. -/
def mergeDay (existing incoming : List PlanItem) : List PlanItem :=
  dedupeWithinDay (mergeAddLoop existing (existing.map itemKey) incoming)

/-- `mergePlanProgress` (Chat.tsx): for each day index present in `incoming`
(creating `out[d] = []` past the end of `prev`), merge that day; days of
`prev` beyond `incoming.length` are left untouched. -/
def mergePlanProgress :
    List (List PlanItem) → List (List PlanItem) → List (List PlanItem)
  | prev, [] => prev
  | [], inc :: incs => mergeDay [] inc :: mergePlanProgress [] incs
  | p :: ps, inc :: incs => mergeDay p inc :: mergePlanProgress ps incs

/-! ## Server-side cost normalizer (chat.js `coerceCost`) -/

/-- `/\bfree\b/` holds at the head of the list (the char after the match must
not be a word character; `f` follows a non-word char checked by the caller). -/
def freeAtHead : List Char → Bool
  | 'f' :: 'r' :: 'e' :: 'e' :: rest =>
    match rest.head? with
    | some n => !(jsWordChar n)
    | none => true
  | _ => false

/-- `/\bfree\b/.test raw`; `prev` is the original previous character. -/
def hasFreeWord : Option Char → List Char → Bool
  | _, [] => false
  | prev, c :: rest =>
    (freeAtHead (c :: rest) &&
      (match prev with | none => true | some p => !(jsWordChar p))) ||
    hasFreeWord (some c) rest

/-- `/\$0\b/` at the head of the list. -/
def dollarZeroAtHead : List Char → Bool
  | '$' :: '0' :: rest =>
    match rest.head? with
    | some n => !(jsWordChar n)
    | none => true
  | _ => false

/-- `/\$0\b/.test raw`. -/
def hasDollarZero : List Char → Bool
  | [] => false
  | c :: rest => dollarZeroAtHead (c :: rest) || hasDollarZero rest

/-- `.replace(/[–—]/g, "-")` (en dash U+2013, em dash U+2014). -/
def dashToHyphen (c : Char) : Char :=
  if c = '–' ∨ c = '—' then '-' else c

/-- `.replace(/\bto\b/g, "-")`: left-to-right scan over the original string;
the boundary context is the original neighbour characters. -/
def replaceToWord : Option Char → List Char → List Char
  | _, [] => []
  | prev, 't' :: 'o' :: rest2 =>
    let prevOk := match prev with | none => true | some p => !(jsWordChar p)
    let nextOk := match rest2.head? with | some n => !(jsWordChar n) | none => true
    if prevOk && nextOk then '-' :: replaceToWord (some 'o') rest2
    else 't' :: replaceToWord (some 't') ('o' :: rest2)
  | _, c :: rest => c :: replaceToWord (some c) rest

/-- `.replace(/~|\s+/g, " ")`: each `~` and each maximal whitespace run
becomes one space (a `~` terminates a whitespace run). -/
def squashTildeWs : Bool → List Char → List Char
  | _, [] => []
  | inRun, c :: rest =>
    if c = '~' then ' ' :: squashTildeWs false rest
    else if jsWs c then
      if inRun then squashTildeWs true rest else ' ' :: squashTildeWs true rest
    else c :: squashTildeWs false rest

/-- One step of `/\d{1,6}/g` matching, folded over the string: state is
(matches so far, current digit run).  A greedy match stops at 6 digits and
the next digit starts a new match. -/
def digitRunStep (s : List (List Char) × List Char) (c : Char) :
    List (List Char) × List Char :=
  if c.isDigit then
    if s.2.length = 6 then (s.1 ++ [s.2], [c]) else (s.1, s.2 ++ [c])
  else if s.2 = [] then s else (s.1 ++ [s.2], [])

/-- `sepNormalized.match(/\d{1,6}/g) || []`. -/
def digitRuns (l : List Char) : List (List Char) :=
  let s := l.foldl digitRunStep ([], [])
  if s.2 = [] then s.1 else s.1 ++ [s.2]

/-- `parseInt` of a 1–6 digit run (always finite, so the
`Number.isFinite` filter in the original is inert). -/
def digitsToNat (l : List Char) : Nat :=
  l.foldl (fun a c => a * 10 + (c.toNat - '0'.toNat)) 0

/-- `coerceCost` (chat.js) on a present, non-empty string, working on the
trimmed+lowercased character list `raw`.  `Math.max(0, n | 0)` is the
identity on the 1–6 digit naturals produced here.  The bucket strings use
the en dash U+2013. -/
def coerceCostRaw (raw : List Char) : Option String :=
  if hasFreeWord none raw || hasDollarZero raw then some "free"
  else
    let sepNormalized :=
      trimWs (squashTildeWs false (replaceToWord none (raw.map dashToHyphen)))
    let nums := (digitRuns sepNormalized).map digitsToNat
    match nums with
    | [n] => some ("$" ++ toString n)
    | a :: b :: _ =>
      let p := if a > b then (b, a) else (a, b)
      if p.1 = p.2 then some ("$" ++ toString p.1)
      else some ("$" ++ toString p.1 ++ "–$" ++ toString p.2)
    | [] =>
      if raw.length = 2 ∧ raw.all (· == '$') then some "$10–$25"
      else if raw.length = 3 ∧ raw.all (· == '$') then some "$25–$50"
      else if 4 ≤ raw.length ∧ raw.all (· == '$') then some "$50–$100"
      else none

/-- `coerceCost` (chat.js).  `!input` rejects an absent or empty string, then
`String(input).trim().toLowerCase()` feeds `coerceCostRaw`. -/
def coerceCost (input : Option String) : Option String :=
  match input with
  | none => none
  | some s =>
    if s.data = [] then none
    else coerceCostRaw ((trimWs s.data).map Char.toLower)

/-! ## Server-side fallback pool and finalize clamp (chat.js) -/

/-- The fields of a suggestion consumed by `suggestionsToStrictDays`
(`name`, `category`, `why`, `estSpend`; the other optional metadata fields
play no role in the functions under study). -/
structure Suggestion where
  name : String
  category : String
  why : String
  estSpend : Option String := none
deriving DecidableEq

/-- One suggestion turned into a strict item:
`{ title: s.name, short_description: s.why || s.category || "", ...cost }`.
(`coerceCost` never returns an empty string, so the JS truthiness test on
`normalized` is exactly `Option.isSome`.) -/
def suggestionToItem (s : Suggestion) : PlanItem :=
  { title := s.name
    short_description := if s.why ≠ "" then s.why else s.category
    estimated_cost := coerceCost s.estSpend }

/-- `suggestionsToStrictDays` (chat.js): distribute the suggestion items over
`max 1 nights` days, 3–5 per day, cycling through the item list to fill the
pool.  When `items` is empty the original JS reads `undefined` from
`items[i % denom]` (and any later field access would throw); the embedding
uses the inert `default` item there — every theorem below that touches the
pool assumes it holds real items. -/
def suggestionsToStrictDays (suggestions : List Suggestion) (nights : Nat) :
    List (List PlanItem) :=
  let days := max 1 nights
  let items := suggestions.map suggestionToItem
  let perDay := min 5 (max 3 ((items.length + days - 1) / days))
  let needed := days * perDay
  let denom := max 1 items.length
  let pool := (List.range needed).map (fun i => items.getD (i % denom) default)
  (List.range days).map (fun d => (pool.drop (d * perDay)).take perDay)

/-- Worker of `dedupeWithinDayByTitle` (chat.js) — dedup by normalized title,
**no** cap. -/
def dedupeByTitleGo (seen : List String) (out : List PlanItem) :
    List PlanItem → List PlanItem
  | [] => out
  | it :: rest =>
    let key := itemKey it
    if key ∈ seen then dedupeByTitleGo seen out rest
    else dedupeByTitleGo (key :: seen) (out ++ [it]) rest

/-- `dedupeWithinDayByTitle` (chat.js). -/
def dedupeWithinDayByTitle (day : List PlanItem) : List PlanItem :=
  dedupeByTitleGo [] [] day

/-- The backfill loops of `enforceDayCount3to5`, flattened over the
concatenation of the try-pools: the JS outer loop walks
`tryPools = [fallback[i]?, fallback.flat()?]` and the inner loop walks one
pool, pushing candidates with unseen keys; after a push that reaches
`needMin = 3` the inner `break` fires and the outer `break` follows
immediately, so stopping right away is equivalent. -/
def backfillLoop : List PlanItem → List String → List PlanItem → List PlanItem
  | day, _, [] => day
  | day, titles, c :: rest =>
    let key := itemKey c
    if key ∈ titles then backfillLoop day titles rest
    else
      let day' := day ++ [c]
      if 3 ≤ day'.length then day'
      else backfillLoop day' (key :: titles) rest

/-- The concatenated candidate sequence walked by the backfill:
`fallback[i]` (when present — JS arrays are truthy) followed by
`fallback.flat()` (pushed whenever `fallback.length` is non-zero). -/
def tryPoolSeq (fallback : List (List PlanItem)) (i : Nat) : List PlanItem :=
  (fallback.getD i []) ++ (if fallback.length ≠ 0 then fallback.flatten else [])

/-- `enforceDayCount3to5` (chat.js): per day — dedup by title, hard truncate
to 5, backfill distinct-keyed candidates up to 3, final truncate to 5. -/
def enforceDayCount3to5 (planDays : List (List PlanItem))
    (suggestions : List Suggestion) (nights : Option Nat) :
    List (List PlanItem) :=
  let daysCount := max planDays.length 1
  let fallback := suggestionsToStrictDays suggestions (nights.getD daysCount)
  (List.range daysCount).map (fun i =>
    let day := (dedupeWithinDayByTitle (planDays.getD i [])).take 5
    let titles := day.map itemKey
    let day2 :=
      if day.length < 3 then backfillLoop day titles (tryPoolSeq fallback i)
      else day
    day2.take 5)

/-! ## Drag-and-drop mutators (Content.tsx)

Item indices are modelled as `Int` so that the "negative index" guards of the
original are meaningful; day indices reaching these functions are array
indices (`Nat`). -/

/-- `performReorder` (Content.tsx): same-day move.  The clamp for the
insertion index is computed against the day length *after* removal, exactly
as `copy[day].length` reads after the `splice`. -/
def performReorder (prev : List (List PlanItem)) (day : Nat)
    (fromIndex toIndex : Int) : List (List PlanItem) :=
  match prev[day]? with
  | none => prev
  | some d =>
    if fromIndex < 0 ∨ (d.length : Int) ≤ fromIndex then prev
    else
      let fi := fromIndex.toNat
      let moved := d.getD fi default    -- `splice` returns the element; guard makes `default` inert
      let d' := d.eraseIdx fi
      let clamped := (max 0 (min toIndex (d'.length : Int))).toNat
      prev.set day (d'.insertIdx clamped moved)

/-- `performCrossDayMove` (Content.tsx).  `src`/`dst` are object references
into the copied document, so when `fromDay = toDay` the destination reflects
the removal; the embedding reads the destination from the document *after*
the removal to capture this aliasing.  `moved ?? { ...data }` is modelled by
`getD … data` — the guard makes the fallback inert. -/
def performCrossDayMove (prev : List (List PlanItem)) (fromDay : Nat)
    (fromIndex : Int) (toDay : Nat) (toIndex : Int) (data : PlanItem) :
    List (List PlanItem) :=
  match prev[fromDay]?, prev[toDay]? with
  | some src, some _ =>
    if fromIndex < 0 ∨ (src.length : Int) ≤ fromIndex then prev
    else
      let fi := fromIndex.toNat
      let moved := src.getD fi data
      let doc1 := prev.set fromDay (src.eraseIdx fi)
      let dst := doc1.getD toDay []
      let ins := (max 0 (min toIndex (dst.length : Int))).toNat
      doc1.set toDay (dst.insertIdx ins moved)
  | _, _ => prev

/-- `computeFinalTarget` (Content.tsx): clamp a hovered drop target to the
document (`day` into `[0, days.length-1]`, `index` into `[0, dayLength]`),
falling back to the drag source when nothing was hovered. -/
def computeFinalTarget (fromDay : Nat) (fromIndex : Int)
    (target : Option (Int × Int)) (days : List (List PlanItem)) : Int × Int :=
  match target with
  | none => ((fromDay : Int), fromIndex)
  | some (tday, tindex) =>
    let maxDay : Int := max 0 ((days.length : Int) - 1)
    let day := max 0 (min tday maxDay)
    let maxIndex : Int := ((days.getD day.toNat []).length : Int)
    (day, max 0 (min tindex maxIndex))

/-! ## The partial-plan extractor (Chat.tsx `extractCompletedActivities`)

The `JSON.parse` + `isStrictItem` validation applied to each captured
`{...}` slice is a host-language built-in; it is abstracted as a parameter
`parseItem : List Char → Option PlanItem` (`none` = parse failure or
validation failure, both silently skipped by the original). -/

/-- The regex literal `"planDays"`. -/
def litPlanDays : List Char :=
  ['"', 'p', 'l', 'a', 'n', 'D', 'a', 'y', 's', '"']

/-- Match a literal at the head; on success return the rest. -/
def matchLit : List Char → List Char → Option (List Char)
  | [], rest => some rest
  | _ :: _, [] => none
  | p :: ps, c :: cs => if c = p then matchLit ps cs else none

/-- `\s*X`: skip whitespace greedily, then require the character `target`
(the backtracking of the greedy `\s*` cannot produce any other outcome,
since `target` is never a whitespace character here). -/
def skipWsThen (target : Char) : List Char → Option (List Char)
  | [] => none
  | c :: cs =>
    if c = target then some cs
    else if jsWs c then skipWsThen target cs
    else none

/-- `/"planDays"\s*:\s*\[/` anchored at the head; on success returns the
suffix right after the `[` (where the scan starts). -/
def matchPlanDaysAt (l : List Char) : Option (List Char) :=
  (matchLit litPlanDays l).bind fun r =>
    (skipWsThen ':' r).bind fun r2 => skipWsThen '[' r2

/-- `regex.exec`: the first position where the pattern matches; returns the
suffix after the match. -/
def findPlanDays : List Char → Option (List Char)
  | [] => none
  | c :: cs =>
    match matchPlanDaysAt (c :: cs) with
    | some r => some r
    | none => findPlanDays cs

/-- The scan state of `extractCompletedActivities`: string/escape flags, the
two depth counters (`depthCurly` may go negative on stray `}`), the current
day accumulator, the capture accumulator (`acc = some …` iff `objStart >= 0`;
it holds the characters from the capturing `{` up to the cursor — the same
characters `jsonText.slice(objStart, i+1)` denotes), and the emitted days. -/
structure ScanState where
  inString : Bool
  escape : Bool
  depthSquare : Nat
  depthCurly : Int
  currentDay : Option (List PlanItem)
  acc : Option (List Char)
  days : List (List PlanItem)
deriving DecidableEq

/-- The scan state right after the `planDays` `[`. -/
def initScan : ScanState :=
  { inString := false, escape := false, depthSquare := 1, depthCurly := 0
    currentDay := none, acc := none, days := [] }

/-- Append the current character to an open capture. -/
def pushAcc (s : ScanState) (c : Char) : ScanState :=
  { s with acc := s.acc.map (· ++ [c]) }

/-- One character of the `while (i < jsonText.length && depthSquare > 0)`
loop.  A state with `depthSquare = 0` is final (the loop has exited). -/
def scanStep (parseItem : List Char → Option PlanItem)
    (s : ScanState) (c : Char) : ScanState :=
  if s.depthSquare = 0 then s
  else if s.inString then
    pushAcc
      (if s.escape then { s with escape := false }
       else if c = '\\' then { s with escape := true }
       else if c = '"' then { s with inString := false }
       else s) c
  else if c = '"' then pushAcc { s with inString := true } c
  else if c = '[' then
    pushAcc { s with depthSquare := s.depthSquare + 1
                     currentDay := if s.depthSquare + 1 = 2 then some [] else s.currentDay } c
  else if c = ']' then
    pushAcc
      (if s.depthSquare = 2 then
        match s.currentDay with
        | some d =>
          { s with days := if d = [] then s.days else s.days ++ [d]
                   currentDay := none, depthSquare := s.depthSquare - 1 }
        | none => { s with depthSquare := s.depthSquare - 1 }
       else { s with depthSquare := s.depthSquare - 1 }) c
  else if c = '{' then
    if s.depthSquare = 2 ∧ s.depthCurly + 1 = 1 then
      { s with depthCurly := s.depthCurly + 1, acc := some ['{'] }
    else pushAcc { s with depthCurly := s.depthCurly + 1 } c
  else if c = '}' then
    if s.depthSquare = 2 ∧ s.depthCurly = 1 then
      match s.acc, s.currentDay with
      | some a, some d =>
        { s with depthCurly := s.depthCurly - 1, acc := none
                 currentDay := some (match parseItem (a ++ ['}']) with
                                     | some it => d ++ [it]
                                     | none => d) }
      | _, _ => pushAcc { s with depthCurly := s.depthCurly - 1 } c
    else pushAcc { s with depthCurly := s.depthCurly - 1 } c
  else pushAcc s c

/-- `extractCompletedActivities` (Chat.tsx): locate `"planDays"\s*:\s*\[`,
scan the remainder, keep the non-empty closed days, dedupe+cap each. -/
def extractCompletedActivities (parseItem : List Char → Option PlanItem)
    (jsonText : List Char) : List (List PlanItem) :=
  match findPlanDays jsonText with
  | none => []
  | some rest =>
    ((rest.foldl (scanStep parseItem) initScan).days.filter
        (fun d => !d.isEmpty)).map dedupeWithinDay

/-! ## The SSE frame parser (Chat.tsx `parseSSEStream`) -/

/-- Prepend a character to the first part of a split result. -/
def consHead (c : Char) : List (List Char) → List (List Char)
  | [] => [[c]]
  | p :: ps => (c :: p) :: ps

/-- `buffer.split('\n\n')` — greedy left-to-right split on the two-newline
frame delimiter. -/
def splitNN : List Char → List (List Char)
  | [] => [[]]
  | [c] => [[c]]
  | c1 :: c2 :: rest =>
    if c1 = '\n' ∧ c2 = '\n' then [] :: splitNN rest
    else consHead c1 (splitNN (c2 :: rest))

/-- `frame.split('\n')`. -/
def splitLines : List Char → List (List Char)
  | [] => [[]]
  | c :: rest => if c = '\n' then [] :: splitLines rest else consHead c (splitLines rest)

/-- `v.replace(/\r$/, '')`: strip at most one trailing carriage return. -/
def stripCR (l : List Char) : List Char :=
  if l.getLast? = some '\r' then l.dropLast else l

/-- One line of a frame, folded over `(ev, data)`: the last `event:` line
wins; `data:` lines accumulate, joined by `\n` — except that an *empty*
accumulated `data` is falsy in JS, so no separator is inserted after it. -/
def frameLineStep (s : List Char × List Char) (raw : List Char) :
    List Char × List Char :=
  if "event:".data.isPrefixOf raw then
    let v := raw.drop 6
    let v := if v.head? = some ' ' then v.tail else v
    (stripCR v, s.2)
  else if "data:".data.isPrefixOf raw then
    let v := raw.drop 5
    let v := if v.head? = some ' ' then v.tail else v
    let v := stripCR v
    (s.1, s.2 ++ (if s.2 = [] then [] else ['\n']) ++ v)
  else s

/-- A complete frame turned into its `(eventType, payload)` callback, or
`none` for the suppressed `[DONE]` sentinel. -/
def frameEvent? (frame : List Char) : Option (List Char × List Char) :=
  let s := (splitLines frame).foldl frameLineStep ("message".data, [])
  if s.2 = "[DONE]".data then none else some s

/-- One call of the closure returned by `parseSSEStream`: append the chunk to
the residual buffer, split on the frame delimiter, hold back the final
(possibly incomplete) fragment, emit one callback per complete frame. -/
def sseFeed (buffer chunk : List Char) :
    List (List Char × List Char) × List Char :=
  let parts := splitNN (buffer ++ chunk)
  (parts.dropLast.filterMap frameEvent?, parts.getLastD [])

/-- Feeding a list of chunks in order, concatenating the emitted callbacks
and threading the residual buffer. -/
def sseFeedMany (buffer : List Char) :
    List (List Char) → List (List Char × List Char) × List Char
  | [] => ([], buffer)
  | c :: cs =>
    let r := sseFeed buffer c
    let r' := sseFeedMany r.2 cs
    (r.1 ++ r'.1, r'.2)

/-! ## The stream event dispatch and the finalize latch (Chat.tsx `feed`)

The component state relevant to the plan document: the progressive JSON
buffer (`jsonBufferRef`), the finalize latch (`finalizedRef`) and the plan
document (`planDays`).  The reply-text/message bookkeeping of the original
touches neither the buffer, the latch, nor the document, and is out of the
model's scope.  `JSON.parse` of the final payload (returning its
`planDays || []` on success) and of the `planImage` payload are abstracted
as parameters. -/
structure StreamState where
  jsonBuffer : List Char
  finalized : Bool
  planDays : List (List PlanItem)
deriving DecidableEq

/-- `planImage`: patch `image_url` onto `next[dayIdx][itemIdx]` when both
exist. -/
def setImageUrl (doc : List (List PlanItem)) (d i : Nat) (url : String) :
    List (List PlanItem) :=
  match doc[d]? with
  | some day =>
    match day[i]? with
    | some it => doc.set d (day.set i { it with image_url := some url })
    | none => doc
  | none => doc

/-- The `feed` callback of Chat.tsx for one `(event, data)` frame:
the finalize guard, the `jsonDelta` accumulate+extract+merge path, the
`planImage` patch path, and the `jsonFinal` replace path (`finalizedRef` is
set only when `JSON.parse` succeeds; the `finally` clears the buffer either
way). -/
def handleEvent (parseItem : List Char → Option PlanItem)
    (parseFinal : List Char → Option (List (List PlanItem)))
    (parseImage : List Char → Option (Nat × Nat × String))
    (s : StreamState) (event : String) (data : List Char) : StreamState :=
  if s.finalized ∧ (event = "jsonDelta" ∨ event = "planImage" ∨ event = "planImageError")
  then s
  else if event = "jsonDelta" then
    let buf := s.jsonBuffer ++ data
    let progress := extractCompletedActivities parseItem buf
    { s with jsonBuffer := buf
             planDays := if progress.isEmpty then s.planDays
                         else mergePlanProgress s.planDays progress }
  else if event = "planImage" then
    match parseImage data with
    | some (d, i, url) => { s with planDays := setImageUrl s.planDays d i url }
    | none => s
  else if event = "jsonFinal" then
    match parseFinal data with
    | some days =>
      { jsonBuffer := [], finalized := true, planDays := sanitizePlanDays days }
    | none => { s with jsonBuffer := [] }
  else s

/-- The reset performed by `handleSubmit` at the start of a new planning
turn: clear the buffer, drop the latch, clear the document. -/
def resetTurn (_s : StreamState) : StreamState :=
  { jsonBuffer := [], finalized := false, planDays := [] }

/-! ## Verification-specific definitions -/

/-- A minimal plan item with a given title, for concrete test documents. -/
def mkItem (t : String) : PlanItem := ⟨t, "d", none, none⟩

/-- The per-day well-formedness invariant: pairwise-distinct DedupKeys and at
most `MAX_ITEMS = 5` items. -/
def DayOk (day : List PlanItem) : Prop :=
  (day.map itemKey).Nodup ∧ day.length ≤ 5

/-- The document-level invariant: every day satisfies `DayOk`. -/
def DocOk (doc : List (List PlanItem)) : Prop := ∀ day ∈ doc, DayOk day

instance (day : List PlanItem) : Decidable (DayOk day) := by
  unfold DayOk; infer_instance

instance (doc : List (List PlanItem)) : Decidable (DocOk doc) := by
  unfold DocOk; infer_instance

/-! # Helper lemmas -/

/-! ### Dedup / merge loops -/

lemma dedupeGo_inv (l : List PlanItem) :
    ∀ seen out, out.length ≤ 4 → (out.map itemKey).Nodup →
      (∀ k ∈ out.map itemKey, k ∈ seen) → DayOk (dedupeGo seen out l) := by
  induction l with
  | nil =>
    intro seen out hlen hnd _
    exact ⟨hnd, by simpa [dedupeGo] using Nat.le_trans hlen (by norm_num)⟩
  | cons it rest ih =>
    intro seen out hlen hnd hsub
    by_cases hmem : itemKey it ∈ seen
    · simpa [dedupeGo, hmem] using ih seen out hlen hnd hsub
    · have hfresh : itemKey it ∉ out.map itemKey := fun h => hmem (hsub _ h)
      have hnd' : ((out ++ [it]).map itemKey).Nodup := by
        simp only [List.map_append, List.map_cons, List.map_nil]
        simp [List.nodup_append, hnd, hfresh]
      by_cases hfull : 4 ≤ out.length
      · have hres : DayOk (out ++ [it]) := ⟨hnd', by simp; omega⟩
        simpa [dedupeGo, hmem, hfull] using hres
      · have := ih (itemKey it :: seen) (out ++ [it])
          (by simp; omega) hnd'
          (by intro k hk
              simp only [List.map_append, List.map_cons, List.map_nil,
                List.mem_append, List.mem_cons, List.mem_singleton] at hk
              rcases hk with hk | hk | hk
              · exact List.mem_cons_of_mem _ (hsub _ hk)
              · simp [hk]
              · simp at hk)
        simpa [dedupeGo, hmem, hfull] using this

/-- `dedupeWithinDay` establishes the invariant unconditionally. -/
lemma dedupeWithinDay_ok (day : List PlanItem) : DayOk (dedupeWithinDay day) :=
  dedupeGo_inv day [] [] (by simp) (by simp) (by simp)

lemma mergePlanProgress_nil (prev : List (List PlanItem)) :
    mergePlanProgress prev [] = prev := by cases prev <;> rfl

lemma mergePlanProgress_nil_cons (inc : List PlanItem) (incs : List (List PlanItem)) :
    mergePlanProgress [] (inc :: incs) = mergeDay [] inc :: mergePlanProgress [] incs := rfl

lemma mergePlanProgress_cons_cons (p : List PlanItem) (ps : List (List PlanItem))
    (inc : List PlanItem) (incs : List (List PlanItem)) :
    mergePlanProgress (p :: ps) (inc :: incs) =
      mergeDay p inc :: mergePlanProgress ps incs := rfl

/-- Every day written by `mergeDay` satisfies the invariant (it ends with the
dedup+cap safety pass). -/
lemma mergeDay_ok (existing incoming : List PlanItem) :
    DayOk (mergeDay existing incoming) :=
  dedupeWithinDay_ok _

lemma mergePlanProgress_ok (incoming : List (List PlanItem)) :
    ∀ prev, DocOk prev → DocOk (mergePlanProgress prev incoming) := by
  induction incoming with
  | nil => intro prev h; simpa [mergePlanProgress_nil] using h
  | cons inc incs ih =>
    intro prev h
    cases prev with
    | nil =>
      rw [mergePlanProgress_nil_cons]
      intro day hday
      rcases List.mem_cons.mp hday with rfl | hday
      · exact mergeDay_ok _ _
      · exact ih [] (by intro d hd; simp at hd) day hday
    | cons p ps =>
      rw [mergePlanProgress_cons_cons]
      intro day hday
      rcases List.mem_cons.mp hday with rfl | hday
      · exact mergeDay_ok _ _
      · exact ih ps (fun d hd => h d (List.mem_cons_of_mem _ hd)) day hday

/-! # Claim theorems -/

/-- **C3.**  The within-day dedup and capacity invariant is preserved by every
write path: if every day of `prev` has pairwise-distinct normalized title
keys and at most 5 items, then so does every day of
`mergePlanProgress prev incoming`, for any candidate `incoming`; and every
day of `sanitizePlanDays days` satisfies the invariant unconditionally. -/
theorem merge_and_sanitize_preserve_day_invariant :
    (∀ prev incoming, DocOk prev → DocOk (mergePlanProgress prev incoming)) ∧
    (∀ days, DocOk (sanitizePlanDays days)) := by
  refine ⟨fun prev incoming h => mergePlanProgress_ok incoming prev h, fun days => ?_⟩
  intro day hday
  rcases List.mem_map.mp hday with ⟨d, _, rfl⟩
  exact dedupeWithinDay_ok d

/-- Witness for **C3** at a concrete document and candidate. -/
theorem merge_and_sanitize_invariant_witness :
    DayOk ((mergePlanProgress [[mkItem "a"]] [[mkItem "b", mkItem "a"]]).getD 0 []) ∧
    DayOk ((sanitizePlanDays [[mkItem "a", mkItem "a"]]).getD 0 []) := by
  constructor
  · exact merge_and_sanitize_preserve_day_invariant.1 [[mkItem "a"]]
      [[mkItem "b", mkItem "a"]] (by decide) _ (by decide)
  · exact merge_and_sanitize_preserve_day_invariant.2 [[mkItem "a", mkItem "a"]]
      _ (by decide)

/-- **C7.**  The cost normalizer maps the spec's example inputs exactly:
`coerceCost "$10" = "$10"`, `coerceCost "$25 to $40" = "$25–$40"` (en dash),
`coerceCost "Free entry" = "free"`, `coerceCost "" = undefined`. -/
theorem coerceCost_spec_examples :
    coerceCost (some "$10") = some "$10" ∧
    coerceCost (some "$25 to $40") = some "$25–$40" ∧
    coerceCost (some "Free entry") = some "free" ∧
    coerceCost (some "") = none := by decide

/-- **C10.**  Stale-drop safety: if the recorded source position is invalid
(the source day does not exist, or the source index is negative or not less
than that day's length), both `performReorder` and `performCrossDayMove`
return the document unchanged. -/
theorem stale_drop_noop (prev : List (List PlanItem)) (day toDay : Nat)
    (fromIdx toIdx : Int) (data : PlanItem)
    (h : ∀ d, prev[day]? = some d → fromIdx < 0 ∨ (d.length : Int) ≤ fromIdx) :
    performReorder prev day fromIdx toIdx = prev ∧
    performCrossDayMove prev day fromIdx toDay toIdx data = prev := by
  constructor
  · unfold performReorder
    cases hd : prev[day]? with
    | none => rfl
    | some d => simp [h d hd]
  · unfold performCrossDayMove
    cases hd : prev[day]? with
    | none => cases prev[toDay]? <;> rfl
    | some d =>
      cases prev[toDay]? with
      | none => rfl
      | some d2 => simp [h d hd]

/-- Witness for **C10**: a drop whose source day `5` does not exist. -/
theorem stale_drop_noop_witness :
    performReorder [[mkItem "a"]] 5 0 0 = [[mkItem "a"]] ∧
    performCrossDayMove [[mkItem "a"]] 5 0 0 0 default = [[mkItem "a"]] :=
  stale_drop_noop [[mkItem "a"]] 5 0 0 0 default
    (fun d hd => by simp at hd)

/-- **C5 — counterexample.**  The claim "the moved item appears in exactly
one day" fails as stated: in `[[x,y,a],[b],[a]]` (all hypotheses of the
claim hold: day 0 has an item at index 2, day 1 exists), after the drop the
moved item `a` appears in day 1 *and* in the untouched day 2. -/
theorem crossDayMove_two_days_counterexample :
    performCrossDayMove [[mkItem "x", mkItem "y", mkItem "a"], [mkItem "b"],
        [mkItem "a"]] 0 2 1 0 default =
      [[mkItem "x", mkItem "y"], [mkItem "a", mkItem "b"], [mkItem "a"]] ∧
    ((performCrossDayMove [[mkItem "x", mkItem "y", mkItem "a"], [mkItem "b"],
        [mkItem "a"]] 0 2 1 0 default).filter
          (fun d => decide (mkItem "a" ∈ d))).length ≠ 1 := by
  constructor
  · rfl
  · decide

/-- **C5 — amended.**  Cross-day move postcondition for a drop with source
`(day 0, index 2)` and final target `(day 1, index 0)`: day 0 loses exactly
its index-2 occurrence, day 1 gains exactly the moved item at position 0,
every other day is untouched, and the occurrence count of every item over
the whole document is preserved (the item is moved, never lost or
duplicated — though it may also occur elsewhere, so "appears in exactly one
day" holds only up to pre-existing duplicates). -/
theorem crossDayMove_postcondition (prev : List (List PlanItem))
    (day0 day1 : List PlanItem) (data : PlanItem)
    (h0 : prev[0]? = some day0) (h1 : prev[1]? = some day1)
    (h2 : 2 < day0.length) :
    (performCrossDayMove prev 0 2 1 0 data)[0]? = some (day0.eraseIdx 2) ∧
    (performCrossDayMove prev 0 2 1 0 data)[1]? =
      some (day0.getD 2 data :: day1) ∧
    (day0.eraseIdx 2).length + 1 = day0.length ∧
    (day0.getD 2 data :: day1).length = day1.length + 1 ∧
    (∀ d, 2 ≤ d → (performCrossDayMove prev 0 2 1 0 data)[d]? = prev[d]?) ∧
    (∀ it : PlanItem,
      (performCrossDayMove prev 0 2 1 0 data).flatten.count it =
        prev.flatten.count it) := by
  rcases prev with _ | ⟨d0, rest⟩
  · simp at h0
  rcases rest with _ | ⟨d1, t⟩
  · simp at h1
  obtain rfl : day0 = d0 := by simpa using h0.symm
  obtain rfl : day1 = d1 := by simpa using h1.symm
  rcases day0 with _ | ⟨x, rest0⟩
  · simp at h2
  rcases rest0 with _ | ⟨y, rest1⟩
  · simp at h2
  rcases rest1 with _ | ⟨z, r⟩
  · simp at h2
  have hres : performCrossDayMove ((x :: y :: z :: r) :: day1 :: t) 0 2 1 0 data =
      (x :: y :: r) :: (z :: day1) :: t := by
    unfold performCrossDayMove
    simp only [List.getElem?_cons_zero, List.getElem?_cons_succ]
    rw [if_neg (by rintro (h | h) <;> · simp at h <;> omega)]
    have hmin : min (0 : Int) ((day1.length : Int)) = 0 :=
      min_eq_left (Int.natCast_nonneg _)
    simp [List.eraseIdx, List.getD, hmin, List.insertIdx]
  rw [hres]
  refine ⟨by simp [List.eraseIdx], by simp [List.eraseIdx, List.getD], ?_,
    by simp, ?_, ?_⟩
  · simp [List.eraseIdx]
  · intro d hd
    obtain ⟨k, rfl⟩ : ∃ k, d = k + 2 := ⟨d - 2, by omega⟩
    simp
  · intro it
    simp [List.count_append, List.count_cons]
    omega

/-- Witness for **C5** at a concrete two-day document. -/
theorem crossDayMove_postcondition_witness :
    (performCrossDayMove [[mkItem "x", mkItem "y", mkItem "a"], [mkItem "b"]]
        0 2 1 0 default)[1]? = some [mkItem "a", mkItem "b"] := by
  have h := (crossDayMove_postcondition
    [[mkItem "x", mkItem "y", mkItem "a"], [mkItem "b"]]
    [mkItem "x", mkItem "y", mkItem "a"] [mkItem "b"] default
    rfl rfl (by decide)).2.1
  simpa using h

/-! ### Dollar-run lemmas for the symbolic cost tiers -/

lemma dropWhile_jsWs_dollarRun (n : Nat) :
    (List.replicate n '$').dropWhile jsWs = List.replicate n '$' := by
  cases n with
  | zero => rfl
  | succ m =>
    simp [List.replicate_succ, List.dropWhile_cons,
      show jsWs '$' = false from by decide]

lemma trimWs_dollarRun (n : Nat) :
    trimWs (List.replicate n '$') = List.replicate n '$' := by
  unfold trimWs
  rw [dropWhile_jsWs_dollarRun, List.reverse_replicate, dropWhile_jsWs_dollarRun,
    List.reverse_replicate]

lemma toLower_dollarRun (n : Nat) :
    (List.replicate n '$').map Char.toLower = List.replicate n '$' := by
  simp [List.map_replicate, show Char.toLower '$' = '$' from by decide]

lemma hasFreeWord_dollarRun (n : Nat) :
    ∀ prev, hasFreeWord prev (List.replicate n '$') = false := by
  induction n with
  | zero => intro prev; rfl
  | succ m ih =>
    intro prev
    have hhead : freeAtHead ('$' :: List.replicate m '$') = false := rfl
    simp [List.replicate_succ, hasFreeWord, hhead, ih]

lemma hasDollarZero_dollarRun (n : Nat) :
    hasDollarZero (List.replicate n '$') = false := by
  induction n with
  | zero => rfl
  | succ m ih =>
    have hhead : dollarZeroAtHead ('$' :: List.replicate m '$') = false := by
      cases m with
      | zero => rfl
      | succ k => rw [List.replicate_succ]; rfl
    simp [List.replicate_succ, hasDollarZero, hhead, ih]

lemma dashToHyphen_dollarRun (n : Nat) :
    (List.replicate n '$').map dashToHyphen = List.replicate n '$' := by
  simp [List.map_replicate, show dashToHyphen '$' = '$' from by decide]

lemma replaceToWord_dollarRun (n : Nat) :
    ∀ prev, replaceToWord prev (List.replicate n '$') = List.replicate n '$' := by
  induction n with
  | zero => intro prev; rfl
  | succ m ih =>
    intro prev
    have hstep : replaceToWord prev ('$' :: List.replicate m '$') =
        '$' :: replaceToWord (some '$') (List.replicate m '$') := rfl
    rw [List.replicate_succ, hstep, ih]

lemma squashTildeWs_dollarRun (n : Nat) :
    ∀ b, squashTildeWs b (List.replicate n '$') = List.replicate n '$' := by
  induction n with
  | zero => intro b; rfl
  | succ m ih =>
    intro b
    simp [List.replicate_succ, squashTildeWs,
      show ¬(('$' : Char) = '~') from by decide,
      show jsWs '$' = false from by decide, ih]

lemma digitRunStep_dollar (acc : List (List Char)) :
    digitRunStep (acc, []) '$' = (acc, []) := by
  simp [digitRunStep, show ('$' : Char).isDigit = false from by decide]

lemma digitRuns_dollarRun (n : Nat) :
    digitRuns (List.replicate n '$') = [] := by
  have hfold : ∀ k acc,
      List.foldl digitRunStep (acc, ([] : List Char)) (List.replicate k '$') =
        (acc, []) := by
    intro k
    induction k with
    | zero => intro acc; rfl
    | succ m ih =>
      intro acc
      rw [List.replicate_succ, List.foldl_cons, digitRunStep_dollar, ih]
  unfold digitRuns
  rw [hfold]
  rfl

lemma all_dollarRun (n : Nat) :
    (List.replicate n '$').all (· == '$') = true := by
  simp [List.all_eq_true, List.mem_replicate]

/-- **C8 — counterexample.**  The single-dollar symbolic tier `"$"` is *not*
mapped to any canonical bucket range: `coerceCost "$"` is `undefined` (the
code only has cases for `$$`, `$$$` and `$$$$`-or-longer). -/
theorem coerceCost_single_dollar_unmapped : coerceCost (some "$") = none := by
  decide

/-- **C8 — amended.**  The symbolic tiers `"$$"` and `"$$$"` map to the fixed
buckets `"$10–$25"` and `"$25–$50"`, and every run of 4 or more dollar signs
maps to `"$50–$100"`; the single `"$"` maps to nothing. -/
theorem coerceCost_symbolic_tiers :
    coerceCost (some "$$") = some "$10–$25" ∧
    coerceCost (some "$$$") = some "$25–$50" ∧
    (∀ n, 4 ≤ n →
      coerceCost (some (String.mk (List.replicate n '$'))) = some "$50–$100") ∧
    coerceCost (some "$") = none := by
  refine ⟨by decide, by decide, ?_, by decide⟩
  intro n hn
  have hne : ¬((String.mk (List.replicate n '$')).data = []) := by
    show ¬(List.replicate n '$' = [])
    simp [List.replicate_eq_nil_iff]
    omega
  unfold coerceCost
  show (if (String.mk (List.replicate n '$')).data = [] then none
        else coerceCostRaw (List.map Char.toLower
          (trimWs (String.mk (List.replicate n '$')).data))) = some "$50–$100"
  rw [if_neg hne]
  show coerceCostRaw (List.map Char.toLower (trimWs (List.replicate n '$'))) = _
  rw [trimWs_dollarRun, toLower_dollarRun]
  unfold coerceCostRaw
  rw [hasFreeWord_dollarRun, hasDollarZero_dollarRun]
  simp only [Bool.or_self, Bool.false_eq_true, if_false]
  rw [dashToHyphen_dollarRun, replaceToWord_dollarRun, squashTildeWs_dollarRun,
    trimWs_dollarRun, digitRuns_dollarRun]
  simp only [List.map_nil]
  rw [if_neg (by simp [List.length_replicate]; omega),
    if_neg (by simp [List.length_replicate]; omega),
    if_pos ⟨by simp [List.length_replicate]; omega, all_dollarRun n⟩]

/-- Witness for **C8** at the concrete run `"$$$$$$"` (six dollar signs). -/
theorem coerceCost_symbolic_tiers_witness :
    coerceCost (some (String.mk (List.replicate 6 '$'))) = some "$50–$100" :=
  coerceCost_symbolic_tiers.2.2.1 6 (by decide)

/-! ### Finalize-latch lemmas -/

lemma handleEvent_delta_finalized
    (parseItem : List Char → Option PlanItem)
    (parseFinal : List Char → Option (List (List PlanItem)))
    (parseImage : List Char → Option (Nat × Nat × String))
    (s : StreamState) (d : List Char) (h : s.finalized = true) :
    handleEvent parseItem parseFinal parseImage s "jsonDelta" d = s := by
  unfold handleEvent
  rw [if_pos ⟨h, Or.inl rfl⟩]

/-- **C6.**  Finalize is a one-way latch: once a `jsonFinal` event with a
parseable payload has been processed (replacing the document with the
sanitized final plan and setting the latch), every subsequently delivered
`jsonDelta` event leaves the state — in particular the plan document —
unchanged; and starting a new turn resets the latch and clears the
document.  Quantified over every behaviour of the JSON parser. -/
theorem finalize_latch
    (parseItem : List Char → Option PlanItem)
    (parseFinal : List Char → Option (List (List PlanItem)))
    (parseImage : List Char → Option (Nat × Nat × String))
    (s : StreamState) (data : List Char) (days : List (List PlanItem))
    (h : parseFinal data = some days) :
    (handleEvent parseItem parseFinal parseImage s "jsonFinal" data).finalized = true ∧
    (handleEvent parseItem parseFinal parseImage s "jsonFinal" data).planDays =
      sanitizePlanDays days ∧
    (∀ deltas : List (List Char),
      deltas.foldl
        (fun st d => handleEvent parseItem parseFinal parseImage st "jsonDelta" d)
        (handleEvent parseItem parseFinal parseImage s "jsonFinal" data) =
      handleEvent parseItem parseFinal parseImage s "jsonFinal" data) ∧
    (resetTurn s).finalized = false ∧ (resetTurn s).planDays = [] := by
  have hs' : handleEvent parseItem parseFinal parseImage s "jsonFinal" data =
      ⟨[], true, sanitizePlanDays days⟩ := by
    unfold handleEvent
    rw [if_neg (by rintro ⟨-, hor | hor | hor⟩ <;> exact absurd hor (by decide)),
      if_neg (by decide), if_neg (by decide), if_pos rfl, h]
  refine ⟨by rw [hs'], by rw [hs'], ?_, rfl, rfl⟩
  intro deltas
  induction deltas with
  | nil => rfl
  | cons d ds ih =>
    rw [List.foldl_cons,
      handleEvent_delta_finalized parseItem parseFinal parseImage _ d (by rw [hs'])]
    exact ih

/-- Witness for **C6**: a concrete final payload containing a duplicated item
replaces a non-empty in-progress document with the sanitized plan. -/
theorem finalize_latch_witness :
    (handleEvent (fun _ => none) (fun _ => some [[mkItem "a", mkItem "a"]])
        (fun _ => none) ⟨"x".data, false, [[mkItem "b"]]⟩
        "jsonFinal" "f".data).planDays = [[mkItem "a"]] := by
  have h := (finalize_latch (fun _ => none)
      (fun _ => some [[mkItem "a", mkItem "a"]]) (fun _ => none)
      ⟨"x".data, false, [[mkItem "b"]]⟩ "f".data [[mkItem "a", mkItem "a"]]
      rfl).2.1
  rw [h]
  decide

/-! ### Merge idempotence lemmas -/

lemma mergeAddLoop_cons (ex : List PlanItem) (seen : List String)
    (it : PlanItem) (rest : List PlanItem) :
    mergeAddLoop ex seen (it :: rest) =
      if 5 ≤ ex.length then ex
      else if itemKey it ∈ seen then mergeAddLoop ex seen rest
      else mergeAddLoop (ex ++ [it]) (itemKey it :: seen) rest := rfl

lemma mergeAddLoop_append (l : List PlanItem) :
    ∀ ex seen, ∃ extra, mergeAddLoop ex seen l = ex ++ extra := by
  induction l with
  | nil => intro ex seen; exact ⟨[], by simp [mergeAddLoop]⟩
  | cons it rest ih =>
    intro ex seen
    rw [mergeAddLoop_cons]
    by_cases hfull : 5 ≤ ex.length
    · exact ⟨[], by simp [hfull]⟩
    · by_cases hmem : itemKey it ∈ seen
      · obtain ⟨extra, he⟩ := ih ex seen
        exact ⟨extra, by simp [hfull, hmem, he]⟩
      · obtain ⟨extra, he⟩ := ih (ex ++ [it]) (itemKey it :: seen)
        exact ⟨it :: extra, by simp [hfull, hmem, he]⟩

lemma mergeAddLoop_nodup (l : List PlanItem) :
    ∀ ex seen, ((ex.map itemKey)).Nodup → (∀ k ∈ ex.map itemKey, k ∈ seen) →
      ((mergeAddLoop ex seen l).map itemKey).Nodup := by
  induction l with
  | nil => intro ex seen hnd _; simpa [mergeAddLoop] using hnd
  | cons it rest ih =>
    intro ex seen hnd hsub
    rw [mergeAddLoop_cons]
    by_cases hfull : 5 ≤ ex.length
    · simpa [hfull] using hnd
    · by_cases hmem : itemKey it ∈ seen
      · simpa [hfull, hmem] using ih ex seen hnd hsub
      · have hfresh : itemKey it ∉ ex.map itemKey := fun hh => hmem (hsub _ hh)
        have hnd' : ((ex ++ [it]).map itemKey).Nodup := by
          simp only [List.map_append, List.map_cons, List.map_nil]
          simp [List.nodup_append, hnd, hfresh]
        have hsub' : ∀ k ∈ (ex ++ [it]).map itemKey, k ∈ itemKey it :: seen := by
          intro k hk
          simp only [List.map_append, List.map_cons, List.map_nil,
            List.mem_append, List.mem_cons, List.mem_singleton] at hk
          rcases hk with hk | hk | hk
          · exact List.mem_cons_of_mem _ (hsub _ hk)
          · simp [hk]
          · simp at hk
        simpa [hfull, hmem] using ih (ex ++ [it]) (itemKey it :: seen) hnd' hsub'

lemma mergeAddLoop_coverage (l : List PlanItem) :
    ∀ ex seen, ∀ it ∈ l,
      itemKey it ∈ (mergeAddLoop ex seen l).map itemKey ∨ itemKey it ∈ seen ∨
        5 ≤ (mergeAddLoop ex seen l).length := by
  induction l with
  | nil => intro ex seen it hit; simp at hit
  | cons it0 rest ih =>
    intro ex seen it hit
    rw [mergeAddLoop_cons]
    by_cases hfull : 5 ≤ ex.length
    · rw [if_pos hfull]
      exact Or.inr (Or.inr hfull)
    · by_cases hmem : itemKey it0 ∈ seen
      · rcases List.mem_cons.mp hit with rfl | hit'
        · simp [hfull, hmem]
        · simpa [hfull, hmem] using ih ex seen it hit'
      · rcases List.mem_cons.mp hit with rfl | hit'
        · obtain ⟨extra, he⟩ := mergeAddLoop_append rest (ex ++ [it]) (itemKey it :: seen)
          have : itemKey it ∈ (mergeAddLoop (ex ++ [it]) (itemKey it :: seen) rest).map itemKey := by
            rw [he]
            exact List.mem_map_of_mem _ (by simp)
          simp [hfull, hmem, this]
        · rcases ih (ex ++ [it0]) (itemKey it0 :: seen) it hit' with h | h | h
          · simp [hfull, hmem, h]
          · rcases List.mem_cons.mp h with heq | hin
            · obtain ⟨extra, he⟩ := mergeAddLoop_append rest (ex ++ [it0]) (itemKey it0 :: seen)
              have : itemKey it ∈ (mergeAddLoop (ex ++ [it0]) (itemKey it0 :: seen) rest).map itemKey := by
                rw [he, heq]
                exact List.mem_map_of_mem _ (by simp)
              simp [hfull, hmem, this]
            · simp [hfull, hmem, hin]
          · simp [hfull, hmem]; omega

lemma mergeAddLoop_full (ex : List PlanItem) (seen : List String)
    (l : List PlanItem) (h : 5 ≤ ex.length) : mergeAddLoop ex seen l = ex := by
  cases l with
  | nil => rfl
  | cons it rest => rw [mergeAddLoop_cons, if_pos h]

lemma mergeAddLoop_noop (l : List PlanItem) :
    ∀ ex seen, (∀ it ∈ l, itemKey it ∈ seen) → mergeAddLoop ex seen l = ex := by
  induction l with
  | nil => intro ex seen _; rfl
  | cons it rest ih =>
    intro ex seen hall
    rw [mergeAddLoop_cons]
    by_cases hfull : 5 ≤ ex.length
    · simp [hfull]
    · have hmem : itemKey it ∈ seen := hall it (by simp)
      simp [hfull, hmem]
      exact ih ex seen (fun x hx => hall x (List.mem_cons_of_mem _ hx))

lemma dedupeGo_take_of_nodup (l : List PlanItem) :
    ∀ seen out, out.length ≤ 4 → (((out ++ l).map itemKey)).Nodup →
      (∀ k, k ∈ seen ↔ k ∈ out.map itemKey) →
      dedupeGo seen out l = (out ++ l).take 5 := by
  induction l with
  | nil =>
    intro seen out hlen _ _
    rw [List.append_nil, List.take_of_length_le (by omega)]
    rfl
  | cons it rest ih =>
    intro seen out hlen hnd hiff
    have hfresh : itemKey it ∉ out.map itemKey := by
      intro hmem
      have : ¬ (List.map itemKey out).Disjoint (List.map itemKey (it :: rest)) := by
        intro hdis
        exact hdis hmem (by simp)
      rw [List.map_append, List.nodup_append] at hnd
      exact this hnd.2.2
    have hmem : itemKey it ∉ seen := fun hh => hfresh ((hiff _).mp hh)
    by_cases hfull : 4 ≤ out.length
    · have hlen4 : out.length = 4 := le_antisymm hlen hfull
      have : (out ++ it :: rest).take 5 = out ++ [it] := by
        rw [List.take_append_eq_append_take, List.take_of_length_le (by omega),
          hlen4]
        simp [List.take_cons]
      simp [dedupeGo, hmem, hfull, this]
    · have hnd' : (((out ++ [it]) ++ rest).map itemKey).Nodup := by
        simpa [List.append_assoc] using hnd
      have hiff' : ∀ k, k ∈ itemKey it :: seen ↔ k ∈ (out ++ [it]).map itemKey := by
        intro k
        simp only [List.mem_cons, hiff, List.map_append, List.map_cons,
          List.map_nil, List.mem_append, List.mem_singleton]
        tauto
      have := ih (itemKey it :: seen) (out ++ [it]) (by simp; omega) hnd' hiff'
      simp only [dedupeGo, hmem, if_false] at this ⊢
      simpa [hmem, hfull, List.append_assoc] using this

lemma dedupe_take_of_nodup (l : List PlanItem)
    (h : (l.map itemKey).Nodup) : dedupeWithinDay l = l.take 5 := by
  have := dedupeGo_take_of_nodup l [] [] (by simp) (by simpa using h)
    (by intro k; simp)
  simpa [dedupeWithinDay] using this

lemma dedupe_id_of_nodup_le (l : List PlanItem)
    (hnd : (l.map itemKey).Nodup) (hlen : l.length ≤ 5) :
    dedupeWithinDay l = l := by
  rw [dedupe_take_of_nodup l hnd, List.take_of_length_le hlen]

/-- The key step for the amended idempotence: on a day with pairwise-distinct
keys, merging the same incoming day twice changes nothing the second time. -/
lemma mergeDay_idem (p i : List PlanItem) (hnd : (p.map itemKey).Nodup) :
    mergeDay (mergeDay p i) i = mergeDay p i := by
  have hAnd : ((mergeAddLoop p (p.map itemKey) i).map itemKey).Nodup :=
    mergeAddLoop_nodup i p (p.map itemKey) hnd (fun k hk => hk)
  have hm : mergeDay p i = (mergeAddLoop p (p.map itemKey) i).take 5 := by
    unfold mergeDay
    exact dedupe_take_of_nodup _ hAnd
  have hmnd : ((mergeDay p i).map itemKey).Nodup := by
    rw [hm, List.map_take]
    exact List.Nodup.sublist (List.take_sublist 5 _) hAnd
  have hmlen : (mergeDay p i).length ≤ 5 := by
    rw [hm, List.length_take]
    omega
  by_cases hc : 5 ≤ (mergeDay p i).length
  · have hfull := mergeAddLoop_full (mergeDay p i) ((mergeDay p i).map itemKey) i hc
    show dedupeWithinDay (mergeAddLoop (mergeDay p i) ((mergeDay p i).map itemKey) i) =
      mergeDay p i
    rw [hfull]
    exact dedupe_id_of_nodup_le _ hmnd hmlen
  · have hAlen : (mergeAddLoop p (p.map itemKey) i).length < 5 := by
      by_contra hge
      have : (mergeDay p i).length = 5 := by
        rw [hm, List.length_take]
        omega
      omega
    have hmA : mergeDay p i = mergeAddLoop p (p.map itemKey) i := by
      rw [hm]
      exact List.take_of_length_le (by omega)
    have hcov : ∀ it ∈ i, itemKey it ∈ (mergeDay p i).map itemKey := by
      intro it hit
      rcases mergeAddLoop_coverage i p (p.map itemKey) it hit with h | h | h
      · rw [hmA]; exact h
      · obtain ⟨extra, he⟩ := mergeAddLoop_append i p (p.map itemKey)
        rw [hmA, he, List.map_append]
        exact List.mem_append_left _ h
      · omega
    have hnoop := mergeAddLoop_noop i (mergeDay p i) ((mergeDay p i).map itemKey) hcov
    show dedupeWithinDay (mergeAddLoop (mergeDay p i) ((mergeDay p i).map itemKey) i) =
      mergeDay p i
    rw [hnoop]
    exact dedupe_id_of_nodup_le _ hmnd hmlen

/-- **C2 — counterexample.**  Idempotence fails for an arbitrary `prev`: with
`prev = [[a,a,a,a,a]]` (five items sharing one key) and
`incoming = [[b]]`, the first merge hits the `length >= 5` break (adding
nothing) and then the safety dedup shrinks the day to `[a]`; the second
merge now finds room and appends `b` — the day grows on the second
application. -/
theorem mergeProgress_not_idempotent_counterexample :
    mergePlanProgress
        (mergePlanProgress
          [[mkItem "a", mkItem "a", mkItem "a", mkItem "a", mkItem "a"]]
          [[mkItem "b"]])
        [[mkItem "b"]] ≠
      mergePlanProgress
        [[mkItem "a", mkItem "a", mkItem "a", mkItem "a", mkItem "a"]]
        [[mkItem "b"]] := by
  decide

/-- **C2 — amended.**  `mergePlanProgress` is idempotent on every document
whose days have pairwise-distinct normalized title keys (the invariant every
merge/sanitize output satisfies): for such `prev` and any `incoming`,
`mergePlanProgress (mergePlanProgress prev incoming) incoming =
mergePlanProgress prev incoming` — the second application adds no items and
grows no day. -/
theorem mergeProgress_idempotent_of_nodup_days
    (prev incoming : List (List PlanItem))
    (h : ∀ day ∈ prev, (day.map itemKey).Nodup) :
    mergePlanProgress (mergePlanProgress prev incoming) incoming =
      mergePlanProgress prev incoming := by
  induction incoming generalizing prev with
  | nil => rw [mergePlanProgress_nil, mergePlanProgress_nil]
  | cons inc incs ih =>
    cases prev with
    | nil =>
      rw [mergePlanProgress_nil_cons, mergePlanProgress_cons_cons,
        mergeDay_idem [] inc (by simp),
        ih [] (by intro d hd; simp at hd)]
    | cons p ps =>
      rw [mergePlanProgress_cons_cons, mergePlanProgress_cons_cons,
        mergeDay_idem p inc (h p (by simp)),
        ih ps (fun d hd => h d (List.mem_cons_of_mem _ hd))]

/-- Witness for **C2** on a concrete well-formed document. -/
theorem mergeProgress_idempotent_witness :
    mergePlanProgress
        (mergePlanProgress [[mkItem "a"]] [[mkItem "b", mkItem "a"]])
        [[mkItem "b", mkItem "a"]] =
      mergePlanProgress [[mkItem "a"]] [[mkItem "b", mkItem "a"]] :=
  mergeProgress_idempotent_of_nodup_days [[mkItem "a"]] [[mkItem "b", mkItem "a"]]
    (by decide)

/-! ### Backfill lemmas -/

lemma backfillLoop_cons (day : List PlanItem) (titles : List String)
    (c : PlanItem) (rest : List PlanItem) :
    backfillLoop day titles (c :: rest) =
      if itemKey c ∈ titles then backfillLoop day titles rest
      else if 3 ≤ (day ++ [c]).length then day ++ [c]
      else backfillLoop (day ++ [c]) (itemKey c :: titles) rest := rfl

lemma backfillLoop_append (pool : List PlanItem) :
    ∀ day titles, ∃ extra, backfillLoop day titles pool = day ++ extra := by
  induction pool with
  | nil => intro day titles; exact ⟨[], by simp [backfillLoop]⟩
  | cons c rest ih =>
    intro day titles
    rw [backfillLoop_cons]
    by_cases hmem : itemKey c ∈ titles
    · rw [if_pos hmem]; exact ih day titles
    · rw [if_neg hmem]
      by_cases hfull : 3 ≤ (day ++ [c]).length
      · rw [if_pos hfull]; exact ⟨[c], rfl⟩
      · rw [if_neg hfull]
        obtain ⟨extra, he⟩ := ih (day ++ [c]) (itemKey c :: titles)
        exact ⟨c :: extra, by rw [he, List.append_assoc]; rfl⟩

lemma backfillLoop_le (pool : List PlanItem) :
    ∀ day titles, day.length < 3 →
      (backfillLoop day titles pool).length ≤ 3 := by
  induction pool with
  | nil => intro day titles h; simpa [backfillLoop] using Nat.le_of_lt h
  | cons c rest ih =>
    intro day titles h
    rw [backfillLoop_cons]
    by_cases hmem : itemKey c ∈ titles
    · rw [if_pos hmem]; exact ih day titles h
    · rw [if_neg hmem]
      by_cases hfull : 3 ≤ (day ++ [c]).length
      · rw [if_pos hfull]
        simp only [List.length_append, List.length_cons, List.length_nil]
        omega
      · rw [if_neg hfull]
        exact ih (day ++ [c]) (itemKey c :: titles)
          (by simp only [List.length_append, List.length_cons, List.length_nil] at hfull ⊢; omega)

lemma backfillLoop_nodup (pool : List PlanItem) :
    ∀ day titles, (day.map itemKey).Nodup →
      (∀ k ∈ day.map itemKey, k ∈ titles) →
      ((backfillLoop day titles pool).map itemKey).Nodup := by
  induction pool with
  | nil => intro day titles hnd _; simpa [backfillLoop] using hnd
  | cons c rest ih =>
    intro day titles hnd hsub
    rw [backfillLoop_cons]
    by_cases hmem : itemKey c ∈ titles
    · rw [if_pos hmem]; exact ih day titles hnd hsub
    · have hfresh : itemKey c ∉ day.map itemKey := fun hh => hmem (hsub _ hh)
      have hnd' : ((day ++ [c]).map itemKey).Nodup := by
        simp only [List.map_append, List.map_cons, List.map_nil]
        simp [List.nodup_append, hnd, hfresh]
      rw [if_neg hmem]
      by_cases hfull : 3 ≤ (day ++ [c]).length
      · rw [if_pos hfull]; exact hnd'
      · rw [if_neg hfull]
        refine ih (day ++ [c]) (itemKey c :: titles) hnd' ?_
        intro k hk
        simp only [List.map_append, List.map_cons, List.map_nil,
          List.mem_append, List.mem_cons, List.mem_singleton] at hk
        rcases hk with hk | hk | hk
        · exact List.mem_cons_of_mem _ (hsub _ hk)
        · simp [hk]
        · simp at hk

lemma backfillLoop_coverage (pool : List PlanItem) :
    ∀ day titles, (backfillLoop day titles pool).length < 3 →
      ∀ c ∈ pool, itemKey c ∈ (backfillLoop day titles pool).map itemKey ∨
        itemKey c ∈ titles := by
  induction pool with
  | nil => intro day titles _ c hc; simp at hc
  | cons c0 rest ih =>
    intro day titles hlt c hc
    rw [backfillLoop_cons] at hlt ⊢
    by_cases hmem : itemKey c0 ∈ titles
    · rw [if_pos hmem] at hlt ⊢
      rcases List.mem_cons.mp hc with rfl | hc'
      · exact Or.inr hmem
      · exact ih day titles hlt c hc'
    · rw [if_neg hmem] at hlt ⊢
      by_cases hfull : 3 ≤ (day ++ [c0]).length
      · rw [if_pos hfull] at hlt
        omega
      · rw [if_neg hfull] at hlt ⊢
        obtain ⟨extra, he⟩ :=
          backfillLoop_append rest (day ++ [c0]) (itemKey c0 :: titles)
        rcases List.mem_cons.mp hc with heq | hc'
        · left
          rw [he]
          refine List.mem_map_of_mem _ ?_
          rw [heq]
          exact List.mem_append_left _ (List.mem_append_right _ (by simp))
        · rcases ih (day ++ [c0]) (itemKey c0 :: titles) hlt c hc' with h | h
          · exact Or.inl h
          · rcases List.mem_cons.mp h with heq | hin
            · left
              rw [he, heq]
              refine List.mem_map_of_mem _ ?_
              exact List.mem_append_left _ (List.mem_append_right _ (by simp))
            · exact Or.inr hin

/-- **C9.**  Finalize backfill: if day `i` of the finalized plan holds exactly
one (valid) item `a`, and the fallback candidate sequence derived from the
suggestions (day-`i` pool followed by the flattened pool, exactly the order
the code walks) contains four items with pairwise-distinct normalized title
keys, all distinct from `a`'s key, then the resulting day `i` has between
`MIN_ITEMS = 3` and `MAX_ITEMS = 5` items and no two of its items — in
particular no backfilled candidate and no pre-existing item — share a
normalized title key. -/
theorem finalize_backfill_reaches_min
    (planDays : List (List PlanItem)) (suggestions : List Suggestion)
    (nights : Option Nat) (i : Nat) (a c1 c2 c3 c4 : PlanItem)
    (hday : planDays[i]? = some [a])
    (h1 : c1 ∈ tryPoolSeq (suggestionsToStrictDays suggestions
            (nights.getD (max planDays.length 1))) i)
    (h2 : c2 ∈ tryPoolSeq (suggestionsToStrictDays suggestions
            (nights.getD (max planDays.length 1))) i)
    (h3 : c3 ∈ tryPoolSeq (suggestionsToStrictDays suggestions
            (nights.getD (max planDays.length 1))) i)
    (h4 : c4 ∈ tryPoolSeq (suggestionsToStrictDays suggestions
            (nights.getD (max planDays.length 1))) i)
    (hdist : ([c1, c2, c3, c4].map itemKey).Nodup)
    (hnota : ∀ c ∈ [c1, c2, c3, c4], itemKey c ≠ itemKey a) :
    ∃ day, (enforceDayCount3to5 planDays suggestions nights)[i]? = some day ∧
      3 ≤ day.length ∧ day.length ≤ 5 ∧ (day.map itemKey).Nodup := by
  have hi : i < planDays.length := (List.getElem?_eq_some.mp hday).1
  have hi' : i < max planDays.length 1 := lt_of_lt_of_le hi (le_max_left _ _)
  set fallback := suggestionsToStrictDays suggestions
    (nights.getD (max planDays.length 1)) with hfb
  set day2 := backfillLoop [a] [itemKey a] (tryPoolSeq fallback i) with hday2
  have hgetd : planDays.getD i [] = [a] := by
    rw [List.getD_eq_getElem?_getD, hday, Option.getD_some]
  have henf : (enforceDayCount3to5 planDays suggestions nights)[i]? =
      some (day2.take 5) := by
    unfold enforceDayCount3to5
    rw [List.getElem?_map, List.getElem?_range hi', Option.map_some']
    congr 1
    rw [hgetd]
    show (let day := (dedupeWithinDayByTitle [a]).take 5
          let titles := day.map itemKey
          let d2 := if day.length < 3 then backfillLoop day titles (tryPoolSeq fallback i)
                    else day
          d2.take 5) = day2.take 5
    show ((if ([a].length < 3) then
            backfillLoop [a] ([a].map itemKey) (tryPoolSeq fallback i)
          else [a]).take 5) = day2.take 5
    rw [if_pos (by simp)]
    rfl
  refine ⟨day2.take 5, henf, ?_, ?_, ?_⟩
  · -- 3 ≤ (day2.take 5).length
    have hge : 3 ≤ day2.length := by
      by_contra hlt
      push_neg at hlt
      obtain ⟨extra, hex⟩ := backfillLoop_append (tryPoolSeq fallback i)
        [a] [itemKey a]
      have hcov : ∀ c ∈ [c1, c2, c3, c4], itemKey c ∈ extra.map itemKey := by
        intro c hc
        have hmem : c ∈ tryPoolSeq fallback i := by
          simp only [List.mem_cons] at hc
          rcases hc with rfl | rfl | rfl | rfl | h
          · exact h1
          · exact h2
          · exact h3
          · exact h4
          · simp at h
        rcases backfillLoop_coverage (tryPoolSeq fallback i) [a] [itemKey a]
            hlt c hmem with h | h
        · rw [hex] at h
          simp only [List.map_cons, List.map_nil, List.map_append,
            List.cons_append, List.nil_append, List.mem_cons] at h
          rcases h with h | h
          · exact absurd h (hnota c hc)
          · exact h
        · simp only [List.mem_singleton] at h
          exact absurd h (hnota c hc)
      have hexlen : extra.length ≤ 1 := by
        have : day2.length = 1 + extra.length := by
          rw [hday2, hex]; simp; omega
        omega
      have k1 := hcov c1 (by simp)
      have k2 := hcov c2 (by simp)
      have hne : itemKey c1 ≠ itemKey c2 := by
        simp only [List.map_cons, List.map_nil, List.nodup_cons,
          List.mem_cons, List.mem_singleton] at hdist
        exact fun h => hdist.1 (Or.inl h)
      rcases extra with _ | ⟨e, rest⟩
      · simp at k1
      · rcases rest with _ | ⟨e2, rest2⟩
        · simp only [List.map_cons, List.map_nil, List.mem_singleton] at k1 k2
          exact hne (k1.trans k2.symm)
        · simp at hexlen
    calc 3 ≤ min day2.length 3 := le_min hge (le_refl 3)
      _ ≤ (day2.take 5).length := by
          rw [List.length_take]
          omega
  · rw [List.length_take]; omega
  · rw [List.map_take]
    refine List.Nodup.sublist (List.take_sublist 5 _) ?_
    exact backfillLoop_nodup (tryPoolSeq fallback i) [a] [itemKey a]
      (by simp) (by simp)

/-- Witness for **C9** at a one-item day and four distinct suggestions. -/
theorem finalize_backfill_witness :
    ∃ day, (enforceDayCount3to5 [[mkItem "only"]]
        [⟨"s1", "c", "w", none⟩, ⟨"s2", "c", "w", none⟩,
         ⟨"s3", "c", "w", none⟩, ⟨"s4", "c", "w", none⟩] (some 1))[0]? =
        some day ∧ 3 ≤ day.length ∧ day.length ≤ 5 ∧
        (day.map itemKey).Nodup := by
  refine finalize_backfill_reaches_min [[mkItem "only"]]
    [⟨"s1", "c", "w", none⟩, ⟨"s2", "c", "w", none⟩,
     ⟨"s3", "c", "w", none⟩, ⟨"s4", "c", "w", none⟩] (some 1) 0
    (mkItem "only")
    (suggestionToItem ⟨"s1", "c", "w", none⟩)
    (suggestionToItem ⟨"s2", "c", "w", none⟩)
    (suggestionToItem ⟨"s3", "c", "w", none⟩)
    (suggestionToItem ⟨"s4", "c", "w", none⟩)
    (by decide) (by decide) (by decide) (by decide) (by decide)
    (by decide) (by decide)


/-! ### SSE split lemmas -/

lemma splitNN_sep (rest : List Char) :
    splitNN ('\n' :: '\n' :: rest) = [] :: splitNN rest := by
  rw [splitNN, if_pos ⟨rfl, rfl⟩]

lemma splitNN_cons2 (c1 c2 : Char) (rest : List Char)
    (h : ¬(c1 = '\n' ∧ c2 = '\n')) :
    splitNN (c1 :: c2 :: rest) = consHead c1 (splitNN (c2 :: rest)) := by
  rw [splitNN, if_neg h]

lemma splitNN_ne_nil : ∀ l, splitNN l ≠ [] := by
  intro l
  induction l using splitNN.induct with
  | case1 => simp [splitNN]
  | case2 c => simp [splitNN]
  | case3 c1 c2 rest h ih =>
    obtain ⟨rfl, rfl⟩ := h
    rw [splitNN_sep]
    simp
  | case4 c1 c2 rest h ih =>
    rw [splitNN_cons2 c1 c2 rest h]
    cases hs : splitNN (c2 :: rest) with
    | nil => exact absurd hs ih
    | cons p ps => simp [consHead]

lemma splitNN_single : ∀ l p, splitNN l = [p] → p = l := by
  intro l
  induction l using splitNN.induct with
  | case1 => intro p hp; simpa [splitNN] using hp.symm
  | case2 c => intro p hp; simpa [splitNN] using hp.symm
  | case3 c1 c2 rest h ih =>
    intro p hp
    obtain ⟨rfl, rfl⟩ := h
    rw [splitNN_sep] at hp
    cases hs : splitNN rest with
    | nil => exact absurd hs (splitNN_ne_nil rest)
    | cons q qs => rw [hs] at hp; simp at hp
  | case4 c1 c2 rest h ih =>
    intro p hp
    rw [splitNN_cons2 c1 c2 rest h] at hp
    cases hs : splitNN (c2 :: rest) with
    | nil => exact absurd hs (splitNN_ne_nil _)
    | cons q qs =>
      rw [hs] at hp
      simp only [consHead] at hp
      rcases List.cons_eq_cons.mp hp with ⟨h1, h2⟩
      subst h2
      rw [← h1, ih q hs]

lemma getLastD_irrel {α : Type} (l : List α) (h : l ≠ []) (d1 d2 : α) :
    l.getLastD d1 = l.getLastD d2 := by
  cases l with
  | nil => exact absurd rfl h
  | cons a t => rfl

lemma splitNN_append : ∀ x y, splitNN (x ++ y) =
    (splitNN x).dropLast ++ splitNN ((splitNN x).getLastD [] ++ y) := by
  intro x
  induction x using splitNN.induct with
  | case1 => intro y; simp [splitNN]
  | case2 c => intro y; simp [splitNN]
  | case3 c1 c2 rest h ih =>
    intro y
    obtain ⟨rfl, rfl⟩ := h
    rw [List.cons_append, List.cons_append, splitNN_sep, splitNN_sep, ih y,
      List.dropLast_cons_of_ne_nil (splitNN_ne_nil rest), List.getLastD_cons,
      List.cons_append]
  | case4 c1 c2 rest h ih =>
    intro y
    rw [List.cons_append, List.cons_append, splitNN_cons2 c1 c2 _ h,
      ← List.cons_append, ih y, splitNN_cons2 c1 c2 rest h]
    cases hs : splitNN (c2 :: rest) with
    | nil => exact absurd hs (splitNN_ne_nil _)
    | cons q qs =>
      cases qs with
      | nil =>
        obtain rfl : q = c2 :: rest := splitNN_single _ q hs
        show consHead c1 ([] ++ splitNN ((c2 :: rest) ++ y)) =
          [] ++ splitNN ((c1 :: c2 :: rest) ++ y)
        rw [List.nil_append, List.nil_append]
        exact (splitNN_cons2 c1 c2 (rest ++ y) h).symm
      | cons q2 qs' =>
        simp only [consHead, List.dropLast_cons₂, List.getLastD_cons,
          List.cons_append]

lemma getLastD_append_of_ne_nil {α : Type} (l2 : List α) (h : l2 ≠ []) :
    ∀ (l1 : List α) (d : α), (l1 ++ l2).getLastD d = l2.getLastD d := by
  intro l1
  induction l1 with
  | nil => intro d; rfl
  | cons x xs ih =>
    intro d
    rw [List.cons_append, List.getLastD_cons, ih x]
    exact getLastD_irrel l2 h x d

lemma sseFeed_append (B a b : List Char) :
    sseFeed B (a ++ b) =
      ((sseFeed B a).1 ++ (sseFeed (sseFeed B a).2 b).1,
        (sseFeed (sseFeed B a).2 b).2) := by
  have hsplit : splitNN (B ++ (a ++ b)) =
      (splitNN (B ++ a)).dropLast ++
        splitNN ((splitNN (B ++ a)).getLastD [] ++ b) := by
    rw [← List.append_assoc]
    exact splitNN_append (B ++ a) b
  have hne := splitNN_ne_nil ((splitNN (B ++ a)).getLastD [] ++ b)
  show ((splitNN (B ++ (a ++ b))).dropLast.filterMap frameEvent?,
      (splitNN (B ++ (a ++ b))).getLastD []) = _
  rw [hsplit, List.dropLast_append,
    if_neg (fun hh => hne (List.isEmpty_iff.mp hh)),
    List.filterMap_append,
    getLastD_append_of_ne_nil _ hne]
  rfl

lemma sseFeedMany_eq (chunks : List (List Char)) :
    ∀ B, chunks ≠ [] → sseFeedMany B chunks = sseFeed B chunks.flatten := by
  induction chunks with
  | nil => intro B h; exact absurd rfl h
  | cons c cs ih =>
    intro B _
    cases cs with
    | nil =>
      show ((sseFeed B c).1 ++ [], (sseFeed B c).2) = sseFeed B ([c].flatten)
      rw [List.append_nil]
      rw [show ([c] : List (List Char)).flatten = c ++ [] from rfl,
        List.append_nil]
    | cons c2 cs' =>
      show ((sseFeed B c).1 ++ (sseFeedMany (sseFeed B c).2 (c2 :: cs')).1,
          (sseFeedMany (sseFeed B c).2 (c2 :: cs')).2) = _
      rw [ih (sseFeed B c).2 (by simp)]
      rw [show ((c :: c2 :: cs') : List (List Char)).flatten =
        c ++ (c2 :: cs').flatten from rfl]
      rw [sseFeed_append B c (c2 :: cs').flatten]

/-- **C4.**  The frame decoder is invariant under chunk splitting: feeding any
list of chunks to the `parseSSEStream` closure in order — starting from the
empty residual buffer — produces exactly the same `(eventType, payload)`
callback sequence (and the same final residual buffer) as feeding their
concatenation as one chunk. -/
theorem sse_parser_chunk_invariant (chunks : List (List Char)) :
    sseFeedMany [] chunks = sseFeed [] chunks.flatten := by
  cases chunks with
  | nil => rfl
  | cons c cs => exact sseFeedMany_eq (c :: cs) [] (by simp)

/-! ### Extractor matcher lemmas -/

lemma matchLit_append (p : List Char) :
    ∀ l r t, matchLit p l = some r → matchLit p (l ++ t) = some (r ++ t) := by
  induction p with
  | nil =>
    intro l r t h
    simp only [matchLit] at h ⊢
    rw [← Option.some_inj.mp h]
  | cons x ps ih =>
    intro l r t h
    cases l with
    | nil => exact absurd h (by simp [matchLit])
    | cons c cs =>
      simp only [matchLit] at h ⊢
      by_cases hc : c = x
      · rw [if_pos hc] at h ⊢
        exact ih cs r t h
      · rw [if_neg hc] at h
        exact absurd h (by simp)

lemma matchLit_struct (p : List Char) :
    ∀ l r, matchLit p l = some r → l = p ++ r := by
  induction p with
  | nil =>
    intro l r h
    simp only [matchLit] at h
    simpa using Option.some_inj.mp h
  | cons x ps ih =>
    intro l r h
    cases l with
    | nil => exact absurd h (by simp [matchLit])
    | cons c cs =>
      simp only [matchLit] at h
      by_cases hc : c = x
      · rw [if_pos hc] at h
        rw [hc, List.cons_append, ih cs r h]
      · rw [if_neg hc] at h
        exact absurd h (by simp)

lemma matchLit_incomplete (p : List Char) :
    ∀ l r' t, matchLit p l = none → matchLit p (l ++ t) = some r' →
      ∃ q, q ≠ [] ∧ p = l ++ q := by
  induction p with
  | nil =>
    intro l r' t h _
    exact absurd h (by simp [matchLit])
  | cons x ps ih =>
    intro l r' t h h2
    cases l with
    | nil => exact ⟨x :: ps, by simp⟩
    | cons c cs =>
      simp only [matchLit] at h h2
      by_cases hc : c = x
      · rw [if_pos hc] at h h2
        obtain ⟨q, hq, hps⟩ := ih cs r' t h h2
        exact ⟨q, hq, by rw [hc, List.cons_append, hps]⟩
      · rw [if_neg hc] at h2
        exact absurd h2 (by simp)

lemma skipWs_append (target : Char) :
    ∀ l r t, skipWsThen target l = some r →
      skipWsThen target (l ++ t) = some (r ++ t) := by
  intro l
  induction l with
  | nil => intro r t h; exact absurd h (by simp [skipWsThen])
  | cons c cs ih =>
    intro r t h
    simp only [skipWsThen] at h ⊢
    by_cases hc : c = target
    · rw [if_pos hc] at h ⊢
      rw [← Option.some_inj.mp h]
      rfl
    · rw [if_neg hc] at h ⊢
      by_cases hw : jsWs c
      · rw [if_pos hw] at h ⊢
        exact ih r t h
      · rw [if_neg hw] at h
        exact absurd h (by simp)

lemma skipWs_struct (target : Char) :
    ∀ l r, skipWsThen target l = some r →
      ∃ w, l = w ++ target :: r ∧ ∀ c ∈ w, jsWs c = true := by
  intro l
  induction l with
  | nil => intro r h; exact absurd h (by simp [skipWsThen])
  | cons c cs ih =>
    intro r h
    simp only [skipWsThen] at h
    by_cases hc : c = target
    · rw [if_pos hc] at h
      exact ⟨[], by rw [hc, ← Option.some_inj.mp h]; rfl, by simp⟩
    · rw [if_neg hc] at h
      by_cases hw : jsWs c
      · rw [if_pos hw] at h
        obtain ⟨w, hw1, hw2⟩ := ih r h
        refine ⟨c :: w, by rw [List.cons_append, hw1], ?_⟩
        intro x hx
        rcases List.mem_cons.mp hx with rfl | hx
        · exact hw
        · exact hw2 x hx
      · rw [if_neg hw] at h
        exact absurd h (by simp)

lemma skipWs_incomplete (target : Char) :
    ∀ l r' t, skipWsThen target l = none →
      skipWsThen target (l ++ t) = some r' → ∀ c ∈ l, jsWs c = true := by
  intro l
  induction l with
  | nil => intro r' t _ _ c hc; simp at hc
  | cons c cs ih =>
    intro r' t h h2 x hx
    simp only [skipWsThen] at h h2
    by_cases hc : c = target
    · rw [if_pos hc] at h
      exact absurd h (by simp)
    · rw [if_neg hc] at h h2
      by_cases hw : jsWs c
      · rw [if_pos hw] at h h2
        rcases List.mem_cons.mp hx with rfl | hx
        · exact hw
        · exact ih r' t h h2 x hx
      · rw [if_neg hw] at h2
        exact absurd h2 (by simp)

lemma matchPlanDaysAt_elim {l r : List Char} (h : matchPlanDaysAt l = some r) :
    ∃ m m2, matchLit litPlanDays l = some m ∧ skipWsThen ':' m = some m2 ∧
      skipWsThen '[' m2 = some r := by
  unfold matchPlanDaysAt at h
  rcases Option.bind_eq_some.mp h with ⟨m, hm, h2⟩
  rcases Option.bind_eq_some.mp h2 with ⟨m2, hm2, h3⟩
  exact ⟨m, m2, hm, hm2, h3⟩

lemma matchPlanDaysAt_intro {l m m2 r : List Char}
    (h1 : matchLit litPlanDays l = some m) (h2 : skipWsThen ':' m = some m2)
    (h3 : skipWsThen '[' m2 = some r) : matchPlanDaysAt l = some r := by
  unfold matchPlanDaysAt
  rw [h1, Option.some_bind, h2, Option.some_bind, h3]

lemma matchPlanDaysAt_append {l r : List Char} (t : List Char)
    (h : matchPlanDaysAt l = some r) :
    matchPlanDaysAt (l ++ t) = some (r ++ t) := by
  obtain ⟨m, m2, h1, h2, h3⟩ := matchPlanDaysAt_elim h
  exact matchPlanDaysAt_intro (matchLit_append _ _ _ t h1)
    (skipWs_append _ _ _ t h2) (skipWs_append _ _ _ t h3)

lemma matchPlanDaysAt_struct {l r : List Char} (h : matchPlanDaysAt l = some r) :
    ∃ w1 w2, l = litPlanDays ++ w1 ++ ':' :: w2 ++ '[' :: r ∧
      (∀ c ∈ w1, jsWs c = true) ∧ (∀ c ∈ w2, jsWs c = true) := by
  obtain ⟨m, m2, h1, h2, h3⟩ := matchPlanDaysAt_elim h
  obtain ⟨w1, hw1, hws1⟩ := skipWs_struct ':' m m2 h2
  obtain ⟨w2, hw2, hws2⟩ := skipWs_struct '[' m2 r h3
  refine ⟨w1, w2, ?_, hws1, hws2⟩
  rw [matchLit_struct _ _ _ h1, hw1, hw2]
  simp [List.append_assoc]

lemma matchPlanDaysAt_length {l r : List Char} (h : matchPlanDaysAt l = some r) :
    12 ≤ l.length := by
  obtain ⟨w1, w2, hl, -, -⟩ := matchPlanDaysAt_struct h
  rw [hl]
  simp [litPlanDays]
  omega

lemma matchPlanDaysAt_head {l r : List Char} (h : matchPlanDaysAt l = some r) :
    l.head? = some '"' := by
  obtain ⟨w1, w2, hl, -, -⟩ := matchPlanDaysAt_struct h
  rw [hl]
  rfl

/-- If the pattern fails on `l` but succeeds on `l ++ t`, then `l` was a
pending partial match: a proper prefix of the literal, or the literal
followed only by whitespace and at most one colon. -/
lemma matchPlanDaysAt_pending {l r' : List Char} (t : List Char)
    (h : matchPlanDaysAt l = none) (h2 : matchPlanDaysAt (l ++ t) = some r') :
    (∃ q, q ≠ [] ∧ litPlanDays = l ++ q) ∨
    (∃ m, l = litPlanDays ++ m ∧ ∀ c ∈ m, jsWs c = true ∨ c = ':') := by
  obtain ⟨M, M2, hM, hM2, hM3⟩ := matchPlanDaysAt_elim h2
  cases hl : matchLit litPlanDays l with
  | none => exact Or.inl (matchLit_incomplete _ _ _ _ hl hM)
  | some m =>
    have hMm : M = m ++ t := by
      have := matchLit_append _ _ _ t hl
      rw [hM] at this
      exact Option.some_inj.mp this
    subst hMm
    have hlm : l = litPlanDays ++ m := matchLit_struct _ _ _ hl
    cases hw : skipWsThen ':' m with
    | none =>
      refine Or.inr ⟨m, hlm, ?_⟩
      intro c hc
      exact Or.inl (skipWs_incomplete ':' m M2 t hw hM2 c hc)
    | some m2 =>
      have hM2m : M2 = m2 ++ t := by
        have := skipWs_append ':' m m2 t hw
        rw [hM2] at this
        exact Option.some_inj.mp this
      subst hM2m
      cases hw2 : skipWsThen '[' m2 with
      | none =>
        obtain ⟨w, hwm, hws⟩ := skipWs_struct ':' m m2 hw
        refine Or.inr ⟨m, hlm, ?_⟩
        intro c hc
        rw [hwm] at hc
        rcases List.mem_append.mp hc with hc | hc
        · exact Or.inl (hws c hc)
        · rcases List.mem_cons.mp hc with rfl | hc
          · exact Or.inr rfl
          · exact Or.inl (skipWs_incomplete '[' m2 r' t hw2 hM3 c hc)
      | some r'' =>
        have : matchPlanDaysAt l = some r'' := matchPlanDaysAt_intro hl hw hw2
        rw [h] at this
        exact absurd this (by simp)

lemma findPlanDays_cons_some {c : Char} {cs r : List Char}
    (h : matchPlanDaysAt (c :: cs) = some r) :
    findPlanDays (c :: cs) = some r := by
  unfold findPlanDays
  rw [h]

lemma findPlanDays_cons_none {c : Char} {cs : List Char}
    (h : matchPlanDaysAt (c :: cs) = none) :
    findPlanDays (c :: cs) = findPlanDays cs := by
  unfold findPlanDays
  rw [h]
  cases cs <;> rfl

lemma findPlanDays_suffix : ∀ l r, findPlanDays l = some r →
    ∃ l', l' <:+ l ∧ matchPlanDaysAt l' = some r := by
  intro l
  induction l with
  | nil => intro r h; simp [findPlanDays] at h
  | cons c cs ih =>
    intro r h
    cases hm : matchPlanDaysAt (c :: cs) with
    | some r0 =>
      rw [findPlanDays_cons_some hm] at h
      obtain rfl : r0 = r := Option.some_inj.mp h
      exact ⟨c :: cs, List.suffix_rfl, hm⟩
    | none =>
      rw [findPlanDays_cons_none hm] at h
      obtain ⟨l', hsuf, hmat⟩ := ih r h
      exact ⟨l', hsuf.trans (List.suffix_cons c cs), hmat⟩

/-- No full pattern match can start inside the tail of a pending match: the
tail `planDays"` + whitespace/colon characters contains no position at which
`"planDays"\s*:\s*\[` succeeds. -/
lemma pending_no_inner_match (m : List Char)
    (hm : ∀ c ∈ m, jsWs c = true ∨ c = ':') :
    ∀ l' r, l' <:+ (['p', 'l', 'a', 'n', 'D', 'a', 'y', 's', '"'] ++ m) →
      matchPlanDaysAt l' = some r → False := by
  intro l' r hsuf hmat
  have hhead : l'.head? = some '"' := matchPlanDaysAt_head hmat
  rw [List.cons_append] at hsuf
  rcases List.suffix_cons_iff.mp hsuf with heq | hsuf
  · rw [heq] at hhead; simp at hhead
  rw [List.cons_append] at hsuf
  rcases List.suffix_cons_iff.mp hsuf with heq | hsuf
  · rw [heq] at hhead; simp at hhead
  rw [List.cons_append] at hsuf
  rcases List.suffix_cons_iff.mp hsuf with heq | hsuf
  · rw [heq] at hhead; simp at hhead
  rw [List.cons_append] at hsuf
  rcases List.suffix_cons_iff.mp hsuf with heq | hsuf
  · rw [heq] at hhead; simp at hhead
  rw [List.cons_append] at hsuf
  rcases List.suffix_cons_iff.mp hsuf with heq | hsuf
  · rw [heq] at hhead; simp at hhead
  rw [List.cons_append] at hsuf
  rcases List.suffix_cons_iff.mp hsuf with heq | hsuf
  · rw [heq] at hhead; simp at hhead
  rw [List.cons_append] at hsuf
  rcases List.suffix_cons_iff.mp hsuf with heq | hsuf
  · rw [heq] at hhead; simp at hhead
  rw [List.cons_append] at hsuf
  rcases List.suffix_cons_iff.mp hsuf with heq | hsuf
  · rw [heq] at hhead; simp at hhead
  rw [List.cons_append, List.nil_append] at hsuf
  rcases List.suffix_cons_iff.mp hsuf with heq | hsuf
  · -- l' = '"' :: m : the literal cannot continue into whitespace/colons
    obtain ⟨w1, w2, hl, -, -⟩ := matchPlanDaysAt_struct hmat
    rw [heq] at hl
    simp only [litPlanDays, List.cons_append, List.append_assoc,
      List.cons.injEq] at hl
    have hp : 'p' ∈ m := by
      rw [hl.2]
      simp
    rcases hm 'p' hp with h | h
    · exact absurd h (by decide)
    · exact absurd h (by decide)
  · -- l' lies inside the whitespace/colon tail, but starts with a quote
    have hq : '"' ∈ l' := by
      obtain ⟨w1, w2, hl, -, -⟩ := matchPlanDaysAt_struct hmat
      rw [hl]
      simp [litPlanDays]
    have hqm : '"' ∈ m := hsuf.sublist.subset hq
    rcases hm '"' hqm with h | h
    · exact absurd h (by decide)
    · exact absurd h (by decide)

/-- The first `"planDays"\s*:\s*\[` match survives appending more bytes, at
the same position: the scan start in the longer buffer is the old scan start
followed by the new bytes. -/
lemma findPlanDays_append : ∀ l r t, findPlanDays l = some r →
    findPlanDays (l ++ t) = some (r ++ t) := by
  intro l
  induction l with
  | nil => intro r t h; simp [findPlanDays] at h
  | cons c cs ih =>
    intro r t h
    rw [List.cons_append]
    cases hm : matchPlanDaysAt (c :: cs) with
    | some r0 =>
      rw [findPlanDays_cons_some hm] at h
      obtain rfl : r0 = r := Option.some_inj.mp h
      have h2 := matchPlanDaysAt_append t hm
      rw [List.cons_append] at h2
      exact findPlanDays_cons_some h2
    | none =>
      rw [findPlanDays_cons_none hm] at h
      have hnone : matchPlanDaysAt (c :: (cs ++ t)) = none := by
        cases hmm : matchPlanDaysAt (c :: (cs ++ t)) with
        | none => rfl
        | some r' =>
          exfalso
          have hm2 : matchPlanDaysAt ((c :: cs) ++ t) = some r' := by
            rw [List.cons_append]; exact hmm
          rcases matchPlanDaysAt_pending t hm hm2 with
            ⟨q, hq, hlit⟩ | ⟨m, hlm, hmprop⟩
          · obtain ⟨l', hsuf, hmat⟩ := findPlanDays_suffix cs r h
            have h12 := matchPlanDaysAt_length hmat
            have hlen : l'.length ≤ cs.length := hsuf.length_le
            have hlq : litPlanDays.length = (c :: cs).length + q.length := by
              rw [hlit]; simp; omega
            have hqlen : 1 ≤ q.length := by
              cases q with
              | nil => exact absurd rfl hq
              | cons _ _ => simp
            simp [litPlanDays] at hlq
            omega
          · have hcs : cs = ['p', 'l', 'a', 'n', 'D', 'a', 'y', 's', '"'] ++ m := by
              simp only [litPlanDays, List.cons_append, List.cons.injEq] at hlm
              exact hlm.2
            obtain ⟨l', hsuf, hmat⟩ := findPlanDays_suffix cs r h
            rw [hcs] at hsuf
            exact pending_no_inner_match m hmprop l' _ hsuf hmat
      rw [findPlanDays_cons_none hnone]
      exact ih r t h

/-! ### Scan monotonicity -/

lemma scanStep_days (parseItem : List Char → Option PlanItem)
    (s : ScanState) (c : Char) :
    ∃ u, (scanStep parseItem s c).days = s.days ++ u := by
  by_cases h0 : s.depthSquare = 0
  · exact ⟨[], by simp [scanStep, h0]⟩
  by_cases h1 : s.inString
  · exact ⟨[], by simp only [scanStep, pushAcc, h0, h1, if_false, if_true,
      ite_false, ite_true]; split_ifs <;> simp⟩
  by_cases h2 : c = '"'
  · exact ⟨[], by simp [scanStep, pushAcc, h0, h1, h2]⟩
  by_cases h3 : c = '['
  · exact ⟨[], by simp [scanStep, pushAcc, h0, h1, h2, h3]⟩
  by_cases h4 : c = ']'
  · by_cases h5 : s.depthSquare = 2
    · cases hcd : s.currentDay with
      | some d =>
        by_cases hd : d = []
        · exact ⟨[], by simp [scanStep, pushAcc, h0, h1, h2, h3, h4, h5, hcd, hd]⟩
        · exact ⟨[d], by simp [scanStep, pushAcc, h0, h1, h2, h3, h4, h5, hcd, hd]⟩
      | none => exact ⟨[], by simp [scanStep, pushAcc, h0, h1, h2, h3, h4, h5, hcd]⟩
    · exact ⟨[], by simp [scanStep, pushAcc, h0, h1, h2, h3, h4, h5]⟩
  by_cases h6 : c = '{'
  · by_cases h7 : s.depthSquare = 2 ∧ s.depthCurly + 1 = 1
    · exact ⟨[], by simp [scanStep, pushAcc, h0, h1, h2, h3, h4, h6, h7]⟩
    · exact ⟨[], by simp only [scanStep, pushAcc, h0, h1, h2, h3, h4, h6, h7,
        if_false, if_true, ite_false, ite_true]; split_ifs <;> simp_all⟩
  by_cases h8 : c = '}'
  · by_cases h9 : s.depthSquare = 2 ∧ s.depthCurly = 1
    · cases hacc : s.acc with
      | some a =>
        cases hcd : s.currentDay with
        | some d =>
          exact ⟨[], by simp [scanStep, pushAcc, h0, h1, h2, h3, h4, h6, h8, h9, hacc, hcd]⟩
        | none =>
          exact ⟨[], by simp [scanStep, pushAcc, h0, h1, h2, h3, h4, h6, h8, h9, hacc, hcd]⟩
      | none =>
        exact ⟨[], by simp [scanStep, pushAcc, h0, h1, h2, h3, h4, h6, h8, h9, hacc]⟩
    · exact ⟨[], by simp [scanStep, pushAcc, h0, h1, h2, h3, h4, h6, h8, h9]⟩
  · exact ⟨[], by simp [scanStep, pushAcc, h0, h1, h2, h3, h4, h6, h8]⟩

lemma foldl_scan_days (parseItem : List Char → Option PlanItem)
    (l : List Char) :
    ∀ s, ∃ u, (List.foldl (scanStep parseItem) s l).days = s.days ++ u := by
  induction l with
  | nil => intro s; exact ⟨[], by simp⟩
  | cons c cs ih =>
    intro s
    obtain ⟨u1, h1⟩ := scanStep_days parseItem s c
    obtain ⟨u2, h2⟩ := ih (scanStep parseItem s c)
    exact ⟨u1 ++ u2, by rw [List.foldl_cons, h2, h1, List.append_assoc]⟩

/-- **C1.**  Extraction is monotone over a growing buffer: for every buffer
`B`, every extension `B ++ t`, and every behaviour of the abstracted
`JSON.parse`-and-validate step, the day list returned by
`extractCompletedActivities B` is a prefix of the one returned for `B ++ t`:
every already-complete day/item reappears at the same day position with the
same contents, and nothing is lost or duplicated. -/
theorem extract_monotone_over_growing_buffer
    (parseItem : List Char → Option PlanItem) (B t : List Char) :
    extractCompletedActivities parseItem B <+:
      extractCompletedActivities parseItem (B ++ t) := by
  unfold extractCompletedActivities
  cases hf : findPlanDays B with
  | none =>
    exact ⟨_, List.nil_append _⟩
  | some rest =>
    simp only [findPlanDays_append B rest t hf]
    have hu := foldl_scan_days parseItem t
      (List.foldl (scanStep parseItem) initScan rest)
    obtain ⟨u, hu⟩ := hu
    have hdays : (List.foldl (scanStep parseItem) initScan (rest ++ t)).days =
        (List.foldl (scanStep parseItem) initScan rest).days ++ u := by
      rw [List.foldl_append]
      exact hu
    refine ⟨(u.filter (fun d => !d.isEmpty)).map dedupeWithinDay, ?_⟩
    rw [← List.map_append, ← List.filter_append, ← hdays]
